import Mathlib

/-!
Shallow embedding of the single-symbol limit order book core
(`src/orderbook/{types,order,price_level,order_book}.{hpp,cpp}`).

Prices and quantities are the raw signed 64-bit fixed-point values
(scale 10000), modelled as `Int`; overflow is out of the spec's domain and
is not defended against in the source, so no wrap-around is modelled.
`std::shared_ptr<Order>` aliasing between the book's id index `orders_`
and the per-level FIFO queues is modelled by storing orders once in an
association list (the id index) and letting levels hold order ids; every
mutation through a pointer becomes an update of the store entry.
-/

namespace TradingEngine

inductive Side where
  | BUY
  | SELL
deriving DecidableEq

inductive OrderType where
  | LIMIT
  | MARKET
deriving DecidableEq

inductive TimeInForce where
  | GTC
  | IOC
  | FOK
deriving DecidableEq

inductive OrderStatus where
  | NEW
  | ACCEPTED
  | REJECTED
  | FILLED
  | PARTIALLY_FILLED
  | CANCELLED
  | REPLACED
deriving DecidableEq

/-- `Order` (order.hpp): identity, immutable attributes and mutable
execution state. Timestamps are host-clock effects with no bearing on any
claim and are omitted. -/
structure Order where
  id : Nat
  side : Side
  type : OrderType
  quantity : Int
  executed_quantity : Int
  price : Int
  time_in_force : TimeInForce
  status : OrderStatus
deriving DecidableEq

def Order.remaining_quantity (o : Order) : Int :=
  o.quantity - o.executed_quantity

/-- `Order::is_active` (order.cpp). -/
def Order.is_active (o : Order) : Bool :=
  o.status = OrderStatus.NEW || o.status = OrderStatus.ACCEPTED ||
    o.status = OrderStatus.PARTIALLY_FILLED

/-- `Order::is_filled` (order.hpp). -/
def Order.is_filled (o : Order) : Bool :=
  o.executed_quantity = o.quantity || o.status = OrderStatus.FILLED

/-- `Order::is_valid` (order.hpp): only the id is checked. -/
def Order.is_valid (o : Order) : Bool :=
  o.id ≠ 0

def Order.set_status (o : Order) (s : OrderStatus) : Order :=
  { o with status := s }

def Order.set_quantity (o : Order) (q : Int) : Order :=
  { o with quantity := q }

/-- `Order::execute` (order.cpp): clamp to remaining, bump executed,
update the status. -/
def Order.execute (o : Order) (exec_qty : Int) : Order :=
  let exec_qty := if exec_qty > o.remaining_quantity then o.remaining_quantity else exec_qty
  let executed := o.executed_quantity + exec_qty
  let status :=
    if executed = o.quantity then OrderStatus.FILLED
    else if executed > 0 then OrderStatus.PARTIALLY_FILLED
    else o.status
  { o with executed_quantity := executed, status := status }

/-- `Order::cancel` (order.cpp): only active orders are cancelled. -/
def Order.cancel (o : Order) : Order :=
  if o.is_active then { o with status := OrderStatus.CANCELLED } else o

/-! ### The order store (the book's `orders_` id index, holding the order
objects that levels alias by id) -/

abbrev Store := List (Nat × Order)

def lookupOrd : Store → Nat → Option Order
  | [], _ => none
  | (k, o) :: rest, i => if k = i then some o else lookupOrd rest i

/-- Point mutation through an `OrderPtr`: rewrite the store entry. -/
def updateOrd (st : Store) (i : Nat) (o' : Order) : Store :=
  st.map (fun p => if p.1 = i then (p.1, o') else p)

/-- `orders_.erase(it)`. -/
def eraseOrd (st : Store) (i : Nat) : Store :=
  st.filter (fun p => p.1 ≠ i)

/-- `orders_[id] = order` on a fresh id. -/
def insertOrd (st : Store) (o : Order) : Store :=
  (o.id, o) :: st

/-! ### PriceLevel (price_level.hpp/.cpp) -/

/-- One price bucket: FIFO of order ids (front = head) plus the cached
total. The C++ `order_map_` is an O(1) index over the same list and is
modelled by list membership. -/
structure PriceLevel where
  price : Int
  orders : List Nat
  total_quantity : Int
deriving DecidableEq

/-- `PriceLevel::add_order`: append at the tail, add remaining to the
cached total; silently rejects a price mismatch. -/
def PriceLevel.add_order (L : PriceLevel) (o : Order) : PriceLevel :=
  if o.price ≠ L.price then L
  else { L with orders := L.orders ++ [o.id],
                total_quantity := L.total_quantity + o.remaining_quantity }

/-- `PriceLevel::remove_order`: O(1) removal by id, subtracting the
order's remaining from the cached total. The order's state is read
through its pointer, i.e. from the store. -/
def PriceLevel.remove_order (st : Store) (L : PriceLevel) (i : Nat) :
    Bool × PriceLevel :=
  if i ∈ L.orders then
    match lookupOrd st i with
    | some o =>
        (true, { L with orders := L.orders.erase i,
                        total_quantity := L.total_quantity - o.remaining_quantity })
    | none => (false, L)
  else (false, L)

/-- `PriceLevel::modify_order_quantity`: in-place quantity update, failing
when the new quantity is below the executed quantity. -/
def PriceLevel.modify_order_quantity (st : Store) (L : PriceLevel) (i : Nat)
    (new_quantity : Int) : Bool × PriceLevel × Store :=
  if i ∈ L.orders then
    match lookupOrd st i with
    | some o =>
        let old_remaining := o.remaining_quantity
        if new_quantity < o.executed_quantity then (false, L, st)
        else
          let o' := o.set_quantity new_quantity
          (true,
           { L with total_quantity :=
               L.total_quantity - old_remaining + o'.remaining_quantity },
           updateOrd st i o')
    | none => (false, L, st)
  else (false, L, st)

def fillsTotal (fills : List (Nat × Int)) : Int :=
  (fills.map (fun f => f.2)).sum

/-- The loop body of `PriceLevel::execute_quantity`: walk the FIFO from the
head, fill `min(qty, head.remaining)` per order, pop filled orders.
The two stopping fall-through branches marked unreachable can only be hit
from states the C++ heap cannot reach (a dangling id, or a stuck head the
C++ loop would spin on); well-formed states never reach them. -/
def executeQtyGo (st : Store) (qty : Int) :
    List Nat → List (Nat × Int) × List Nat × Store
  | [] => ([], [], st)
  | i :: rest =>
    if qty ≤ 0 then ([], i :: rest, st)
    else
      match lookupOrd st i with
      | none => ([], i :: rest, st)   -- unreachable: level ids alias live orders
      | some o =>
          let order_remaining := o.remaining_quantity
          let exec_qty := if qty < order_remaining then qty else order_remaining
          if exec_qty > 0 then
            let o' := o.execute exec_qty
            let st' := updateOrd st i o'
            if o'.is_filled then
              let r := executeQtyGo st' (qty - exec_qty) rest
              ((i, exec_qty) :: r.1, r.2.1, r.2.2)
            else
              -- head only partially consumed: the request is exhausted
              ([(i, exec_qty)], i :: rest, st')
          else
            if o.is_filled then executeQtyGo st qty rest
            else ([], i :: rest, st)  -- unreachable: the C++ loop would not terminate

/-- `PriceLevel::execute_quantity`: consume from the head of the FIFO,
returning the (order id, fill quantity) pairs in consumption order; the
cached total drops by each executed quantity. -/
def PriceLevel.execute_quantity (st : Store) (L : PriceLevel) (qty : Int) :
    List (Nat × Int) × PriceLevel × Store :=
  if L.orders.isEmpty ∨ qty ≤ 0 then ([], L, st)
  else
    let r := executeQtyGo st qty L.orders
    (r.1, { L with orders := r.2.1,
                   total_quantity := L.total_quantity - fillsTotal r.1 },
     r.2.2)

/-! ### The book (order_book.hpp/.cpp) -/

/-- `OrderMatch` (order_book.hpp); the timestamp is a host-clock effect
and is omitted. -/
structure OrderMatch where
  maker_order_id : Nat
  taker_order_id : Nat
  match_price : Int
  match_quantity : Int
deriving DecidableEq

/-- The book: bid levels in descending price order, ask levels ascending
(the two `std::map`s), the id index, and the cached side totals. -/
structure OrderBook where
  bids : List PriceLevel
  asks : List PriceLevel
  orders : Store
  total_bid_quantity : Int
  total_ask_quantity : Int
deriving DecidableEq

def emptyBook : OrderBook :=
  { bids := [], asks := [], orders := [],
    total_bid_quantity := 0, total_ask_quantity := 0 }

/-- `levels.find(price)`. -/
def findLevel (ls : List PriceLevel) (p : Int) : Option PriceLevel :=
  ls.find? (fun L => L.price = p)

/-- Mutation through the found `PriceLevelPtr`: replace the first level
with this price (prices are unique in a map). -/
def updateLevel : List PriceLevel → Int → PriceLevel → List PriceLevel
  | [], _, _ => []
  | M :: rest, p, L' =>
      if M.price = p then L' :: rest else M :: updateLevel rest p L'

/-- `levels.erase(price)`: drop the (unique) level at this price. -/
def eraseLevel : List PriceLevel → Int → List PriceLevel
  | [], _ => []
  | M :: rest, p => if M.price = p then rest else M :: eraseLevel rest p

/-- `bid_levels_[price] = level` on a missing key: sorted insertion,
descending. -/
def insertLevelDesc : List PriceLevel → PriceLevel → List PriceLevel
  | [], L => [L]
  | M :: rest, L =>
      if M.price < L.price then L :: M :: rest
      else if M.price = L.price then L :: rest
      else M :: insertLevelDesc rest L

/-- `ask_levels_[price] = level` on a missing key: sorted insertion,
ascending. -/
def insertLevelAsc : List PriceLevel → PriceLevel → List PriceLevel
  | [], L => [L]
  | M :: rest, L =>
      if L.price < M.price then L :: M :: rest
      else if M.price = L.price then L :: rest
      else M :: insertLevelAsc rest L

/-- `OrderBook::create_match`: the match carries the maker's limit price.
The maker's id and price are immutable, so reading them from the
post-walk store equals reading them at fill time. -/
def matchOfFill (st : Store) (taker_id : Nat) (f : Nat × Int) : OrderMatch :=
  { maker_order_id := f.1
    taker_order_id := taker_id
    match_price := (match lookupOrd st f.1 with | some o => o.price | none => 0)
    match_quantity := f.2 }

/-- The matching loop shared by the four side branches of
`OrderBook::match_market_order` / `match_limit_order`: repeatedly consume
the best opposite level while quantity remains and (for limit takers)
the best price is inside the limit; erase emptied levels; break early on
a fill or an FOK shortfall. Returns (fills, surviving levels, store,
remaining quantity). The level kept back un-emptied carries a remaining
quantity of zero in every state the C++ loop terminates on. -/
def matchWalk (priceOk : Int → Bool) (tif : TimeInForce) (taker_qty : Int)
    (st : Store) (remaining : Int) :
    List PriceLevel → List (Nat × Int) × List PriceLevel × Store × Int
  | [] => ([], [], st, remaining)
  | L :: rest =>
    if remaining ≤ 0 then ([], L :: rest, st, remaining)
    else if ¬ priceOk L.price then ([], L :: rest, st, remaining)
    else
      let r := PriceLevel.execute_quantity st L remaining
      let fills := r.1
      let L' := r.2.1
      let st' := r.2.2
      let remaining' := remaining - fillsTotal fills
      if L'.orders.isEmpty then
        if remaining' ≤ 0 ∨ (tif = TimeInForce.FOK ∧ remaining' < taker_qty) then
          (fills, rest, st', remaining')
        else
          let w := matchWalk priceOk tif taker_qty st' remaining' rest
          (fills ++ w.1, w.2.1, w.2.2.1, w.2.2.2)
      else
        (fills, L' :: rest, st', remaining')

/-- `OrderBook::match_market_order`: walk the opposite side with no price
bound; afterwards post the fills to the taker; an FOK shortfall is
cancelled after the fact, returning no matches (the fills stay applied).
Returns (matches, book, taker object's final state). -/
def OrderBook.match_market_order (b : OrderBook) (o : Order) :
    List OrderMatch × OrderBook × Order :=
  if o.type ≠ OrderType.MARKET then ([], b, o)
  else
    let remaining := o.remaining_quantity
    let w :=
      match o.side with
      | Side.BUY => matchWalk (fun _ => true) o.time_in_force o.quantity b.orders remaining b.asks
      | Side.SELL => matchWalk (fun _ => true) o.time_in_force o.quantity b.orders remaining b.bids
    let consumed := remaining - w.2.2.2
    let b' :=
      match o.side with
      | Side.BUY =>
          { b with asks := w.2.1, orders := w.2.2.1,
                   total_ask_quantity := b.total_ask_quantity - consumed }
      | Side.SELL =>
          { b with bids := w.2.1, orders := w.2.2.1,
                   total_bid_quantity := b.total_bid_quantity - consumed }
    let ms := w.1.map (matchOfFill w.2.2.1 o.id)
    let o' := o.execute (o.quantity - w.2.2.2)
    if o.time_in_force = TimeInForce.FOK ∧ w.2.2.2 > 0 then
      ([], b', o'.set_status OrderStatus.CANCELLED)
    else
      (ms, b', o')

/-- `OrderBook::match_limit_order`: walk the opposite side while the best
price is inside the taker's limit; afterwards post the fills to the
taker; an FOK shortfall is cancelled after the fact, returning no matches
(the fills stay applied). -/
def OrderBook.match_limit_order (b : OrderBook) (o : Order) :
    List OrderMatch × OrderBook × Order :=
  if o.type ≠ OrderType.LIMIT then ([], b, o)
  else
    let remaining := o.remaining_quantity
    let w :=
      match o.side with
      | Side.BUY =>
          matchWalk (fun p => ¬ p > o.price) o.time_in_force o.quantity b.orders remaining b.asks
      | Side.SELL =>
          matchWalk (fun p => ¬ p < o.price) o.time_in_force o.quantity b.orders remaining b.bids
    let consumed := remaining - w.2.2.2
    let b' :=
      match o.side with
      | Side.BUY =>
          { b with asks := w.2.1, orders := w.2.2.1,
                   total_ask_quantity := b.total_ask_quantity - consumed }
      | Side.SELL =>
          { b with bids := w.2.1, orders := w.2.2.1,
                   total_bid_quantity := b.total_bid_quantity - consumed }
    let ms := w.1.map (matchOfFill w.2.2.1 o.id)
    let o' := o.execute (o.quantity - w.2.2.2)
    if o.time_in_force = TimeInForce.FOK ∧ w.2.2.2 > 0 then
      ([], b', o'.set_status OrderStatus.CANCELLED)
    else
      (ms, b', o')

/-- `OrderBook::add_limit_order_to_book`: find or create the level at the
order's price, bump the side total by the remaining quantity, append the
order, index it by id. -/
def OrderBook.add_limit_order_to_book (b : OrderBook) (o : Order) : OrderBook :=
  if o.type ≠ OrderType.LIMIT ∨ o.is_filled then b
  else
    match o.side with
    | Side.BUY =>
        let bids' :=
          match findLevel b.bids o.price with
          | some L => updateLevel b.bids o.price (L.add_order o)
          | none => insertLevelDesc b.bids ((PriceLevel.mk o.price [] 0).add_order o)
        { b with bids := bids',
                 total_bid_quantity := b.total_bid_quantity + o.remaining_quantity,
                 orders := insertOrd b.orders o }
    | Side.SELL =>
        let asks' :=
          match findLevel b.asks o.price with
          | some L => updateLevel b.asks o.price (L.add_order o)
          | none => insertLevelAsc b.asks ((PriceLevel.mk o.price [] 0).add_order o)
        { b with asks := asks',
                 total_ask_quantity := b.total_ask_quantity + o.remaining_quantity,
                 orders := insertOrd b.orders o }

/-- `OrderBook::add_order`: validate, mark ACCEPTED, dispatch on type,
rest an unfilled non-IOC limit remainder. Returns
(matches, book, taker object's final state). -/
def OrderBook.add_order (b : OrderBook) (o : Order) : List OrderMatch × OrderBook × Order :=
  if ¬ o.is_valid then ([], b, o)
  else
    let o := o.set_status OrderStatus.ACCEPTED
    match o.type with
    | OrderType.MARKET =>
        b.match_market_order o
    | OrderType.LIMIT =>
        let r := b.match_limit_order o
        if ¬ r.2.2.is_filled ∧ r.2.2.time_in_force ≠ TimeInForce.IOC then
          (r.1, r.2.1.add_limit_order_to_book r.2.2, r.2.2)
        else r

/-- `OrderBook::remove_price_level_if_empty`. -/
def OrderBook.remove_price_level_if_empty (b : OrderBook) (p : Int) (side : Side) : OrderBook :=
  match side with
  | Side.BUY =>
      match findLevel b.bids p with
      | some L => if L.orders.isEmpty then { b with bids := eraseLevel b.bids p } else b
      | none => b
  | Side.SELL =>
      match findLevel b.asks p with
      | some L => if L.orders.isEmpty then { b with asks := eraseLevel b.asks p } else b
      | none => b

/-- `OrderBook::cancel_order`. The third component is the final state of
the C++ order object (which outlives its removal from the index through
the caller's shared pointer). -/
def OrderBook.cancel_order (b : OrderBook) (order_id : Nat) :
    Bool × OrderBook × Option Order :=
  match lookupOrd b.orders order_id with
  | none => (false, b, none)
  | some o =>
      let step :=
        match o.side with
        | Side.BUY =>
            match findLevel b.bids o.price with
            | some L =>
                let r := L.remove_order b.orders order_id
                if r.1 then
                  (true,
                   OrderBook.remove_price_level_if_empty
                     { b with bids := updateLevel b.bids o.price r.2,
                              total_bid_quantity :=
                                b.total_bid_quantity - o.remaining_quantity }
                     o.price Side.BUY)
                else (false, b)
            | none => (false, b)
        | Side.SELL =>
            match findLevel b.asks o.price with
            | some L =>
                let r := L.remove_order b.orders order_id
                if r.1 then
                  (true,
                   OrderBook.remove_price_level_if_empty
                     { b with asks := updateLevel b.asks o.price r.2,
                              total_ask_quantity :=
                                b.total_ask_quantity - o.remaining_quantity }
                     o.price Side.SELL)
                else (false, b)
            | none => (false, b)
      if step.1 then
        let o' := o.cancel
        (true, { step.2 with orders := eraseOrd step.2.orders order_id }, some o')
      else (false, b, some o)

/-- `OrderBook::modify_order`: the in-place fast path adjusts the level
and side totals through `PriceLevel::modify_order_quantity` and marks the
order REPLACED; every other case is cancel-and-replace. -/
def OrderBook.modify_order (b : OrderBook) (order_id : Nat)
    (new_price : Option Int) (new_quantity : Option Int) :
    List OrderMatch × OrderBook :=
  if new_price = none ∧ new_quantity = none then ([], b)
  else
    match lookupOrd b.orders order_id with
    | none => ([], b)
    | some o =>
        match new_price, new_quantity with
        | none, some nq =>
          if nq ≤ o.quantity then
            -- in-place decrease fast path
            let b' :=
              match o.side with
              | Side.BUY =>
                  match findLevel b.bids o.price with
                  | some L =>
                      let old_remaining := o.remaining_quantity
                      let r := L.modify_order_quantity b.orders order_id nq
                      let new_remaining :=
                        match lookupOrd r.2.2 order_id with
                        | some o2 => o2.remaining_quantity
                        | none => old_remaining
                      { b with bids := updateLevel b.bids o.price r.2.1,
                               orders := r.2.2,
                               total_bid_quantity :=
                                 b.total_bid_quantity - old_remaining + new_remaining }
                  | none => b
              | Side.SELL =>
                  match findLevel b.asks o.price with
                  | some L =>
                      let old_remaining := o.remaining_quantity
                      let r := L.modify_order_quantity b.orders order_id nq
                      let new_remaining :=
                        match lookupOrd r.2.2 order_id with
                        | some o2 => o2.remaining_quantity
                        | none => old_remaining
                      { b with asks := updateLevel b.asks o.price r.2.1,
                               orders := r.2.2,
                               total_ask_quantity :=
                                 b.total_ask_quantity - old_remaining + new_remaining }
                  | none => b
            let b'' :=
              match lookupOrd b'.orders order_id with
              | some o2 =>
                  { b' with orders :=
                      updateOrd b'.orders order_id (o2.set_status OrderStatus.REPLACED) }
              | none => b'
            ([], b'')
          else
            modifyReplace b o order_id new_price new_quantity
        | _, _ =>
            modifyReplace b o order_id new_price new_quantity
where
  /-- The cancel-and-replace tail of `OrderBook::modify_order`. -/
  modifyReplace (b : OrderBook) (o : Order) (order_id : Nat)
      (new_price : Option Int) (new_quantity : Option Int) :
      List OrderMatch × OrderBook :=
    let c := b.cancel_order order_id
    if ¬ c.1 then ([], b)
    else
      let new_order : Order :=
        { id := order_id, side := o.side, type := o.type,
          quantity := new_quantity.getD o.quantity,
          executed_quantity := 0,
          price := new_price.getD o.price,
          time_in_force := o.time_in_force,
          status := OrderStatus.NEW }
      let a := c.2.1.add_order new_order
      (a.1, a.2.1)

/-- `OrderBook::get_order`. -/
def OrderBook.get_order (b : OrderBook) (order_id : Nat) : Option Order :=
  lookupOrd b.orders order_id

/-- `OrderBook::best_bid`: the first (highest) bid level's price. -/
def OrderBook.best_bid (b : OrderBook) : Option Int :=
  b.bids.head?.map (fun L => L.price)

/-- `OrderBook::best_ask`: the first (lowest) ask level's price. -/
def OrderBook.best_ask (b : OrderBook) : Option Int :=
  b.asks.head?.map (fun L => L.price)

/-! ### Price / Quantity formatting (types.hpp / types.cpp) -/

def INT64_MIN : Int := -9223372036854775808
def INT64_MAX : Int := 9223372036854775807

/-- `Price::INVALID = Price(std::numeric_limits<int64_t>::lowest())`. -/
def PRICE_INVALID : Int := INT64_MIN

/-- `Price::MAX_VALUE = Price(std::numeric_limits<int64_t>::max())`. -/
def PRICE_MAX_VALUE : Int := INT64_MAX

/-- `Price::MIN_VALUE = Price(std::numeric_limits<int64_t>::min())`; for a
64-bit signed integer `min() == lowest()`, so this is the same raw value
as `Price::INVALID`. -/
def PRICE_MIN_VALUE : Int := INT64_MIN

/-- `ss << std::setw(4) << std::setfill('0') << frac_part` for
`0 ≤ frac_part < 10000`: the decimal digits left-padded with zeros to
width four. -/
def padFrac4 (n : Nat) : String :=
  let s := Nat.repr n
  String.mk (List.replicate (4 - s.length) '0') ++ s

/-- `Price::to_string` / `Quantity::to_string` (types.cpp). The sentinel
checks compare raw values, in the order INVALID, MAX, MIN. For every
non-sentinel value `negative ? -value_ : value_` is exactly `|v|`, and
streaming a non-negative int64 prints its decimal digits, here
`Nat.repr`. -/
def priceToString (v : Int) : String :=
  if v = PRICE_INVALID then "INVALID"
  else if v = PRICE_MAX_VALUE then "MAX"
  else if v = PRICE_MIN_VALUE then "MIN"
  else
    let negative := v < 0
    let abs_value := v.natAbs
    let int_part := abs_value / 10000
    let frac_part := abs_value % 10000
    (if negative then "-" else "") ++ Nat.repr int_part ++ "." ++ padFrac4 frac_part

/-- Modelled from the spec for comparison (§4.1): "The formatter for value
v writes `sign, |v|/10000, '.', (|v|%10000) zero-padded to 4 digits`". -/
def specPriceFormat (v : Int) : String :=
  (if v < 0 then "-" else "") ++ Nat.repr (v.natAbs / 10000) ++ "."
    ++ padFrac4 (v.natAbs % 10000)

/-! ### Well-formedness of book states -/

/-- Sum of the remaining quantities of the orders a level aliases,
resolved through the store. -/
def sumRemaining (st : Store) (l : List Nat) : Int :=
  (l.map (fun i =>
    match lookupOrd st i with
    | some o => o.remaining_quantity
    | none => 0)).sum

/-- The statuses an order sitting in a price level can carry: ACCEPTED or
PARTIALLY_FILLED in routine states, REPLACED after an in-place modify,
CANCELLED for the FOK remainder the engine rests. -/
def statusOKForLevel (o : Order) : Prop :=
  o.status = OrderStatus.ACCEPTED ∨ o.status = OrderStatus.PARTIALLY_FILLED ∨
    o.status = OrderStatus.REPLACED ∨ o.status = OrderStatus.CANCELLED

/-- Well-formedness of the id index: unique keys, each order knows its
key, executed quantity within `[0, quantity]`. -/
structure StoreWF (st : Store) : Prop where
  nodup : (st.map Prod.fst).Nodup
  idMatch : ∀ p ∈ st, (Prod.snd p).id = Prod.fst p
  execBounds : ∀ p ∈ st, 0 ≤ (Prod.snd p).executed_quantity ∧
    (Prod.snd p).executed_quantity ≤ (Prod.snd p).quantity

/-- Well-formedness of one level on side `s`: the cached total is the sum
of remaining quantities, ids are unique, and each id resolves to a live
order at the level's price on the level's side. -/
structure LevelWF (st : Store) (s : Side) (L : PriceLevel) : Prop where
  total_eq : L.total_quantity = sumRemaining st L.orders
  nodup : L.orders.Nodup
  mems : ∀ i ∈ L.orders, ∃ o, lookupOrd st i = some o ∧ o.price = L.price ∧
    o.side = s ∧ statusOKForLevel o

/-- Well-formedness of one side: distinct level prices, well-formed
levels, cached side total equal to the sum of level totals. -/
structure SideWF (st : Store) (s : Side) (levels : List PriceLevel) (total : Int) : Prop where
  nodupPrices : (levels.map PriceLevel.price).Nodup
  levelsWF : ∀ L ∈ levels, LevelWF st s L
  total_eq : total = (levels.map PriceLevel.total_quantity).sum

/-- Well-formedness of a whole book. -/
structure BookWF (b : OrderBook) : Prop where
  store : StoreWF b.orders
  bidWF : SideWF b.orders Side.BUY b.bids b.total_bid_quantity
  askWF : SideWF b.orders Side.SELL b.asks b.total_ask_quantity

/-- Book states reachable from the empty book by valid operations:
submissions carry a fresh id (not in the id index, which is what
`order_by_id` observes), a fresh execution state and a non-negative
quantity; modify quantities are non-negative; cancels are arbitrary. -/
inductive Reachable : OrderBook → Prop where
  | empty : Reachable emptyBook
  | submit (b : OrderBook) (o : Order) : Reachable b →
      lookupOrd b.orders o.id = none →
      o.executed_quantity = 0 →
      0 ≤ o.quantity →
      Reachable (b.add_order o).2.1
  | cancel (b : OrderBook) (i : Nat) : Reachable b →
      Reachable (b.cancel_order i).2.1
  | modify (b : OrderBook) (i : Nat) (np nq : Option Int) : Reachable b →
      (∀ v, nq = some v → 0 ≤ v) →
      Reachable (b.modify_order i np nq).2

/-- `true` iff an order with this id is resting: present in the id index
and in the level at its price on its side. -/
def OrderBook.sideLevels (b : OrderBook) : Side → List PriceLevel
  | Side.BUY => b.bids
  | Side.SELL => b.asks

def restingIn (b : OrderBook) (i : Nat) : Bool :=
  match lookupOrd b.orders i with
  | none => false
  | some o =>
      match findLevel (b.sideLevels o.side) o.price with
      | none => false
      | some L => i ∈ L.orders

/-- The book `cancel_order` leaves behind on a successful cancel of order
`o` found in level `L`: the order is erased from its level (the level
dropped if it just became empty), the side total drops by the order's
remaining quantity, and the id is erased from the index. -/
def cancelExpected (b : OrderBook) (o : Order) (L : PriceLevel) (i : Nat) : OrderBook :=
  let L' : PriceLevel :=
    { L with orders := L.orders.erase i,
             total_quantity := L.total_quantity - o.remaining_quantity }
  match o.side with
  | Side.BUY =>
      let bids1 := updateLevel b.bids o.price L'
      { b with bids := if L'.orders.isEmpty then eraseLevel bids1 o.price else bids1,
               total_bid_quantity := b.total_bid_quantity - o.remaining_quantity,
               orders := eraseOrd b.orders i }
  | Side.SELL =>
      let asks1 := updateLevel b.asks o.price L'
      { b with asks := if L'.orders.isEmpty then eraseLevel asks1 o.price else asks1,
               total_ask_quantity := b.total_ask_quantity - o.remaining_quantity,
               orders := eraseOrd b.orders i }

/-! ### Concrete scenario states (spec §8, all values at scale 10000) -/

def mkOrder (i : Nat) (s : Side) (t : OrderType) (q p : Int) (tif : TimeInForce) : Order :=
  { id := i, side := s, type := t, quantity := q, executed_quantity := 0,
    price := p, time_in_force := tif, status := OrderStatus.NEW }

/-- Scenario 4 pre-state: resting SELL id=2001 qty=8 @ 102.0. -/
def bookS4 : OrderBook :=
  (emptyBook.add_order (mkOrder 2001 Side.SELL OrderType.LIMIT 80000 1020000 TimeInForce.GTC)).2.1

/-- Scenario 4 taker: LIMIT BUY id=1004 qty=10 @ 103.0, FOK. -/
def fokTaker : Order := mkOrder 1004 Side.BUY OrderType.LIMIT 100000 1030000 TimeInForce.FOK

def fokResult : List OrderMatch × OrderBook × Order := bookS4.add_order fokTaker

/-- Two resting asks: id=2001 qty=5 @ 102.0 and id=2002 qty=5 @ 103.0. -/
def bookTwoAsks : OrderBook :=
  ((emptyBook.add_order
      (mkOrder 2001 Side.SELL OrderType.LIMIT 50000 1020000 TimeInForce.GTC)).2.1.add_order
    (mkOrder 2002 Side.SELL OrderType.LIMIT 50000 1030000 TimeInForce.GTC)).2.1

/-- FOK LIMIT BUY id=3001 qty=20 @ 103.0 against `bookTwoAsks`. -/
def crossResult : List OrderMatch × OrderBook × Order :=
  bookTwoAsks.add_order (mkOrder 3001 Side.BUY OrderType.LIMIT 200000 1030000 TimeInForce.FOK)

/-- A partially filled resting bid: SELL id=9 qty=4 @ 100.0 rests, then
BUY id=5 qty=10 @ 100.0 fills 4 and rests with executed=4. -/
def bookPartialBid : OrderBook :=
  ((emptyBook.add_order
      (mkOrder 9 Side.SELL OrderType.LIMIT 40000 1000000 TimeInForce.GTC)).2.1.add_order
    (mkOrder 5 Side.BUY OrderType.LIMIT 100000 1000000 TimeInForce.GTC)).2.1

/-- A resting bid id=1 qty=10 @ 100.0 quantity-decreased in place to 5:
still resting, status REPLACED. -/
def bookReplaced : OrderBook :=
  ((emptyBook.add_order
      (mkOrder 1 Side.BUY OrderType.LIMIT 100000 1000000 TimeInForce.GTC)).2.1.modify_order
    1 none (some 50000)).2

/-- A one-submit book: resting BUY id=1 qty=5 @ 100.0. -/
def bookR1 : OrderBook :=
  (emptyBook.add_order (mkOrder 1 Side.BUY OrderType.LIMIT 50000 1000000 TimeInForce.GTC)).2.1

/-- The state order 1 of `bookR1` rests in. -/
def ordC5 : Order :=
  { id := 1, side := Side.BUY, type := OrderType.LIMIT, quantity := 50000,
    executed_quantity := 0, price := 1000000, time_in_force := TimeInForce.GTC,
    status := OrderStatus.ACCEPTED }

/-- The single bid level of `bookR1`. -/
def lvlC5 : PriceLevel := { price := 1000000, orders := [1], total_quantity := 50000 }

/-! ## Theorems -/

/-- C10: `Order::execute` clamps its argument: executed_quantity grows by
exactly `min(exec_qty, remaining)`, never exceeds the total quantity
(remaining never goes negative), and the status becomes FILLED exactly on
reaching the total, else PARTIALLY_FILLED once executed is positive. -/
theorem order_execute_clamps (o : Order) (exec_qty : Int) :
    (o.execute exec_qty).executed_quantity
        = o.executed_quantity + min exec_qty o.remaining_quantity ∧
    (o.execute exec_qty).executed_quantity ≤ (o.execute exec_qty).quantity ∧
    0 ≤ (o.execute exec_qty).remaining_quantity ∧
    (o.execute exec_qty).quantity = o.quantity ∧
    ((o.execute exec_qty).executed_quantity = o.quantity →
      (o.execute exec_qty).status = OrderStatus.FILLED) ∧
    ((o.execute exec_qty).executed_quantity ≠ o.quantity →
      0 < (o.execute exec_qty).executed_quantity →
      (o.execute exec_qty).status = OrderStatus.PARTIALLY_FILLED) := by
  simp only [Order.execute, Order.remaining_quantity]
  split_ifs <;> simp_all <;> omega

/-- Witness for `order_execute_clamps` at a concrete over-sized fill. -/
theorem order_execute_clamps_witness :
    ((mkOrder 3 Side.BUY OrderType.LIMIT 50000 1000000 TimeInForce.GTC).execute
        70000).executed_quantity
      = (mkOrder 3 Side.BUY OrderType.LIMIT 50000 1000000 TimeInForce.GTC).executed_quantity
        + min 70000
            (mkOrder 3 Side.BUY OrderType.LIMIT 50000 1000000 TimeInForce.GTC).remaining_quantity :=
  (order_execute_clamps (mkOrder 3 Side.BUY OrderType.LIMIT 50000 1000000 TimeInForce.GTC)
      70000).1

/-- C9 counterexample: the raw value of `Price::MIN_VALUE` equals that of
`Price::INVALID` (both are int64 min), and the INVALID check runs first,
so MIN renders as "INVALID", not as the claimed tag "MIN". -/
theorem priceToString_min_renders_INVALID :
    priceToString PRICE_MIN_VALUE = "INVALID" ∧
    priceToString PRICE_MIN_VALUE ≠ "MIN" := by
  constructor
  · decide
  · decide

/-- C9 as amended: every value other than the (two distinct) sentinel raw
values formats as sign, `|v|/10000`, '.', `|v|%10000` zero-padded to four
digits; the INVALID and MIN sentinels (one and the same raw value) render
"INVALID", and MAX renders "MAX". -/
theorem priceToString_spec (v : Int)
    (h1 : v ≠ PRICE_INVALID) (h2 : v ≠ PRICE_MAX_VALUE) :
    priceToString v = specPriceFormat v ∧
    priceToString PRICE_INVALID = "INVALID" ∧
    priceToString PRICE_MIN_VALUE = "INVALID" ∧
    priceToString PRICE_MAX_VALUE = "MAX" := by
  have h3 : v ≠ PRICE_MIN_VALUE := h1
  refine ⟨?_, by decide, by decide, by decide⟩
  simp only [priceToString, specPriceFormat, if_neg h1, if_neg h2, if_neg h3]

/-- Witness for `priceToString_spec` at v = -12345 (renders "-1.2345"). -/
theorem priceToString_spec_witness :
    ((-12345 : Int) ≠ PRICE_INVALID ∧ (-12345 : Int) ≠ PRICE_MAX_VALUE) ∧
    (priceToString (-12345) = specPriceFormat (-12345) ∧
     priceToString PRICE_INVALID = "INVALID" ∧
     priceToString PRICE_MIN_VALUE = "INVALID" ∧
     priceToString PRICE_MAX_VALUE = "MAX") :=
  ⟨⟨by decide, by decide⟩, priceToString_spec (-12345) (by decide) (by decide)⟩

/-- C1 failing input (spec scenario 4): resting SELL 2001 qty 8 @ 102.0;
submit LIMIT BUY 1004 qty 10 @ 103.0 FOK. The submit returns no matches
and the taker is CANCELLED, but the book is not restored: the maker is
FILLED with executed 8 (it was 0), the ask side total has dropped 8 → 0,
and the cancelled taker itself rests in the id index. -/
theorem fok_submit_mutates_book :
    fokResult.1 = [] ∧
    fokResult.2.2.status = OrderStatus.CANCELLED ∧
    (bookS4.get_order 2001).map Order.executed_quantity = some 0 ∧
    (fokResult.2.1.get_order 2001).map Order.executed_quantity = some 80000 ∧
    (fokResult.2.1.get_order 2001).map Order.status = some OrderStatus.FILLED ∧
    bookS4.total_ask_quantity = 80000 ∧
    fokResult.2.1.total_ask_quantity = 0 ∧
    fokResult.2.1.get_order 1004 ≠ none := by
  decide

/-- C4 failing input: resting asks 2001 qty 5 @ 102.0 and 2002 qty 5 @
103.0; submit LIMIT BUY 3001 qty 20 @ 103.0 FOK (a valid submission).
The FOK walk consumes the 102.0 level, breaks, and the cancelled taker
rests at 103.0 on the bid side while the 103.0 ask level survives:
best_bid = best_ask = 103.0, a crossed book at quiescence. -/
theorem fok_submit_crosses_book :
    crossResult.1 = [] ∧
    crossResult.2.1.best_bid = some 1030000 ∧
    crossResult.2.1.best_ask = some 1030000 ∧
    ¬ (1030000 : Int) < 1030000 := by
  decide

/-- C5 counterexample: after the valid sequence "submit GTC LIMIT BUY
id=1 qty=10 @ 100.0; modify(1, no price, qty 5)", order 1 still rests on
the book (in the id index and in the 100.0 bid level) but its status is
REPLACED, so `is_active` is false, contradicting the claim. -/
theorem replaced_order_rests_inactive :
    (bookReplaced.get_order 1).map Order.status = some OrderStatus.REPLACED ∧
    (bookReplaced.get_order 1).map Order.is_active = some false ∧
    bookReplaced.bids.map PriceLevel.orders = [[1]] := by
  decide

/-- C2 counterexample: cancelling the resting REPLACED order id=1 of
`bookReplaced` returns true and removes it, but `Order::cancel` only
cancels active orders, so the final status stays REPLACED, not the
claimed CANCELLED. -/
theorem cancel_replaced_not_cancelled :
    restingIn bookReplaced 1 = true ∧
    (bookReplaced.cancel_order 1).1 = true ∧
    ((bookReplaced.cancel_order 1).2.2).map Order.status = some OrderStatus.REPLACED ∧
    ((bookReplaced.cancel_order 1).2.2).map Order.status ≠ some OrderStatus.CANCELLED := by
  decide

/-- C3 counterexample: order 5 rests with executed = 4; modify with
new_quantity 2 < 4 returns empty but does not leave the order unchanged:
its status flips PARTIALLY_FILLED → REPLACED. -/
theorem modify_underflow_sets_replaced :
    (bookPartialBid.get_order 5).map Order.executed_quantity = some 40000 ∧
    (bookPartialBid.get_order 5).map Order.status = some OrderStatus.PARTIALLY_FILLED ∧
    (bookPartialBid.modify_order 5 none (some 20000)).1 = [] ∧
    ((bookPartialBid.modify_order 5 none (some 20000)).2.get_order 5).map Order.status
      = some OrderStatus.REPLACED := by
  decide

/-- C7 counterexample: `Order::is_valid` checks only the id, so a LIMIT
BUY with zero price and positive quantity passes validation, matches
nothing, and rests on the book: `order_by_id` finds it afterwards. -/
theorem zero_price_limit_rests :
    (emptyBook.add_order
        (mkOrder 7 Side.BUY OrderType.LIMIT 50000 0 TimeInForce.GTC)).2.1.get_order 7
      ≠ none := by
  decide

/-! ### Store lemmas -/

theorem lookupOrd_updateOrd_ne (st : Store) (i : Nat) (o' : Order) (k : Nat)
    (h : k ≠ i) : lookupOrd (updateOrd st i o') k = lookupOrd st k := by
  induction st with
  | nil => rfl
  | cons p rest ih =>
      obtain ⟨a, b⟩ := p
      show lookupOrd ((if a = i then (a, o') else (a, b)) :: updateOrd rest i o') k
          = lookupOrd ((a, b) :: rest) k
      by_cases hai : a = i
      · rw [if_pos hai]
        show (if a = k then some o' else lookupOrd (updateOrd rest i o') k)
            = (if a = k then some b else lookupOrd rest k)
        have hak : ¬ a = k := fun he => h (he ▸ hai)
        rw [if_neg hak, if_neg hak, ih]
      · rw [if_neg hai]
        show (if a = k then some b else lookupOrd (updateOrd rest i o') k)
            = (if a = k then some b else lookupOrd rest k)
        by_cases hak : a = k
        · rw [if_pos hak, if_pos hak]
        · rw [if_neg hak, if_neg hak, ih]

theorem lookupOrd_updateOrd_self (st : Store) (i : Nat) (o' : Order) :
    lookupOrd (updateOrd st i o') i = (lookupOrd st i).map (fun _ => o') := by
  induction st with
  | nil => rfl
  | cons p rest ih =>
      obtain ⟨a, b⟩ := p
      show lookupOrd ((if a = i then (a, o') else (a, b)) :: updateOrd rest i o') i
          = (lookupOrd ((a, b) :: rest) i).map (fun _ => o')
      by_cases hai : a = i
      · rw [if_pos hai]
        show (if a = i then some o' else lookupOrd (updateOrd rest i o') i)
            = (if a = i then some b else lookupOrd rest i).map (fun _ => o')
        rw [if_pos hai, if_pos hai]
        rfl
      · rw [if_neg hai]
        show (if a = i then some b else lookupOrd (updateOrd rest i o') i)
            = (if a = i then some b else lookupOrd rest i).map (fun _ => o')
        rw [if_neg hai, if_neg hai, ih]

theorem lookupOrd_updateOrd (st : Store) (i : Nat) (o' : Order) (k : Nat) :
    lookupOrd (updateOrd st i o') k =
      if k = i then (lookupOrd st i).map (fun _ => o') else lookupOrd st k := by
  by_cases h : k = i
  · subst h
    rw [if_pos rfl]
    exact lookupOrd_updateOrd_self st k o'
  · rw [if_neg h]
    exact lookupOrd_updateOrd_ne st i o' k h

theorem lookupOrd_eraseOrd (st : Store) (i : Nat) (k : Nat) :
    lookupOrd (eraseOrd st i) k = if k = i then none else lookupOrd st k := by
  induction st with
  | nil =>
      cases h : (if k = i then (none : Option Order) else none) <;> simp_all [eraseOrd, lookupOrd]
  | cons p rest ih =>
      obtain ⟨a, b⟩ := p
      by_cases hai : a = i
      · have hd : decide ¬ ((a, b) : Nat × Order).1 = i = false := by simp [hai]
        show lookupOrd (List.filter (fun p => decide ¬ p.1 = i) ((a, b) :: rest)) k = _
        rw [List.filter_cons, hd]
        show lookupOrd (eraseOrd rest i) k = if k = i then none else lookupOrd ((a, b) :: rest) k
        rw [ih]
        by_cases hki : k = i
        · rw [if_pos hki, if_pos hki]
        · rw [if_neg hki, if_neg hki]
          have hak : ¬ a = k := fun he => hki ((he.symm.trans hai))
          show lookupOrd rest k = (if a = k then some b else lookupOrd rest k)
          rw [if_neg hak]
      · have hd : decide ¬ ((a, b) : Nat × Order).1 = i = true := by simp [hai]
        show lookupOrd (List.filter (fun p => decide ¬ p.1 = i) ((a, b) :: rest)) k = _
        rw [List.filter_cons, hd]
        show (if a = k then some b else lookupOrd (eraseOrd rest i) k)
            = if k = i then none else lookupOrd ((a, b) :: rest) k
        by_cases hak : a = k
        · have hki : ¬ k = i := fun he => hai (hak.trans he)
          rw [if_pos hak, if_neg hki]
          show some b = (if a = k then some b else lookupOrd rest k)
          rw [if_pos hak]
        · rw [if_neg hak, ih]
          by_cases hki : k = i
          · rw [if_pos hki, if_pos hki]
          · rw [if_neg hki, if_neg hki]
            show lookupOrd rest k = (if a = k then some b else lookupOrd rest k)
            rw [if_neg hak]

theorem lookupOrd_insertOrd (st : Store) (o : Order) (k : Nat) :
    lookupOrd (insertOrd st o) k = if o.id = k then some o else lookupOrd st k := rfl

theorem updateOrd_map_fst (st : Store) (i : Nat) (o' : Order) :
    (updateOrd st i o').map Prod.fst = st.map Prod.fst := by
  induction st with
  | nil => rfl
  | cons p rest ih =>
      obtain ⟨a, b⟩ := p
      by_cases hai : a = i <;> simp_all [updateOrd]

theorem lookupOrd_mem (st : Store) (i : Nat) (o : Order)
    (h : lookupOrd st i = some o) : (i, o) ∈ st := by
  induction st with
  | nil => simp [lookupOrd] at h
  | cons p rest ih =>
      obtain ⟨a, b⟩ := p
      by_cases hai : a = i <;> simp_all [lookupOrd]

theorem lookupOrd_eq_none_iff (st : Store) (i : Nat) :
    lookupOrd st i = none ↔ ∀ p ∈ st, Prod.fst p ≠ i := by
  induction st with
  | nil => simp [lookupOrd]
  | cons p rest ih =>
      obtain ⟨a, b⟩ := p
      by_cases hai : a = i <;> simp_all [lookupOrd]

theorem lookupOrd_eq_none_of_not_keys (st : Store) (i : Nat)
    (h : i ∉ st.map Prod.fst) : lookupOrd st i = none := by
  rw [lookupOrd_eq_none_iff]
  intro p hp hpi
  exact h (hpi ▸ List.mem_map_of_mem Prod.fst hp)

theorem keys_not_mem_of_lookupOrd_none (st : Store) (i : Nat)
    (h : lookupOrd st i = none) : i ∉ st.map Prod.fst := by
  rw [lookupOrd_eq_none_iff] at h
  intro hmem
  obtain ⟨p, hp, hpe⟩ := List.mem_map.1 hmem
  exact h p hp hpe

theorem StoreWF.lookup_props {st : Store} (hwf : StoreWF st) {i : Nat} {o : Order}
    (h : lookupOrd st i = some o) :
    o.id = i ∧ 0 ≤ o.executed_quantity ∧ o.executed_quantity ≤ o.quantity := by
  have hm := lookupOrd_mem st i o h
  exact ⟨hwf.idMatch (i, o) hm, hwf.execBounds (i, o) hm⟩

theorem StoreWF.updateOrd {st : Store} (hwf : StoreWF st) {i : Nat} {o' : Order}
    (hid : o'.id = i) (h0 : 0 ≤ o'.executed_quantity)
    (h1 : o'.executed_quantity ≤ o'.quantity) :
    StoreWF (updateOrd st i o') := by
  refine ⟨?_, ?_, ?_⟩
  · rw [updateOrd_map_fst]; exact hwf.nodup
  · intro p hp
    obtain ⟨q, hq, hqe⟩ := List.mem_map.1 hp
    by_cases hqi : q.1 = i <;> simp [hqi] at hqe <;>
      [skip; exact hqe ▸ hwf.idMatch q hq]
    subst hqe
    simpa [hqi] using hid
  · intro p hp
    obtain ⟨q, hq, hqe⟩ := List.mem_map.1 hp
    by_cases hqi : q.1 = i <;> simp [hqi] at hqe <;>
      [skip; exact hqe ▸ hwf.execBounds q hq]
    subst hqe
    exact ⟨h0, h1⟩

theorem StoreWF.eraseOrd {st : Store} (hwf : StoreWF st) (i : Nat) :
    StoreWF (eraseOrd st i) := by
  refine ⟨?_, ?_, ?_⟩
  · exact hwf.nodup.sublist ((List.filter_sublist st).map Prod.fst)
  · intro p hp
    exact hwf.idMatch p (List.mem_of_mem_filter hp)
  · intro p hp
    exact hwf.execBounds p (List.mem_of_mem_filter hp)

theorem StoreWF.insertOrd {st : Store} (hwf : StoreWF st) {o : Order}
    (hfresh : lookupOrd st o.id = none)
    (h0 : 0 ≤ o.executed_quantity) (h1 : o.executed_quantity ≤ o.quantity) :
    StoreWF (insertOrd st o) := by
  refine ⟨?_, ?_, ?_⟩
  · show (o.id :: st.map Prod.fst).Nodup
    exact List.nodup_cons.mpr ⟨keys_not_mem_of_lookupOrd_none st o.id hfresh, hwf.nodup⟩
  · intro p hp
    rcases List.mem_cons.1 hp with h | h
    · subst h; rfl
    · exact hwf.idMatch p h
  · intro p hp
    rcases List.mem_cons.1 hp with h | h
    · subst h; exact ⟨h0, h1⟩
    · exact hwf.execBounds p h

/-! ### sumRemaining lemmas -/

theorem sumRemaining_nil (st : Store) : sumRemaining st [] = 0 := rfl

theorem sumRemaining_cons (st : Store) (i : Nat) (l : List Nat) :
    sumRemaining st (i :: l) =
      (match lookupOrd st i with
       | some o => o.remaining_quantity
       | none => 0) + sumRemaining st l := by
  simp [sumRemaining]

theorem sumRemaining_append (st : Store) (l₁ l₂ : List Nat) :
    sumRemaining st (l₁ ++ l₂) = sumRemaining st l₁ + sumRemaining st l₂ := by
  simp [sumRemaining]

theorem sumRemaining_congr {st st' : Store} {l : List Nat}
    (h : ∀ i ∈ l, lookupOrd st' i = lookupOrd st i) :
    sumRemaining st' l = sumRemaining st l := by
  unfold sumRemaining
  congr 1
  exact List.map_congr_left (fun i hi => by rw [h i hi])

theorem sumRemaining_perm (st : Store) {l l' : List Nat} (h : l.Perm l') :
    sumRemaining st l = sumRemaining st l' :=
  (h.map _).sum_eq

theorem sumRemaining_erase (st : Store) {l : List Nat} {i : Nat} (h : i ∈ l) :
    sumRemaining st (l.erase i) =
      sumRemaining st l -
        (match lookupOrd st i with
         | some o => o.remaining_quantity
         | none => 0) := by
  have hp := List.perm_cons_erase h
  rw [sumRemaining_perm st hp, sumRemaining_cons]
  ring

theorem sumRemaining_drop (st : Store) (l : List Nat) (n : Nat) :
    sumRemaining st l =
      sumRemaining st (l.take n) + sumRemaining st (l.drop n) := by
  conv_lhs => rw [← List.take_append_drop n l]
  rw [sumRemaining_append]

/-! ### The walk does not add or remove index keys -/

theorem executeQtyGo_lookup_none (oids : List Nat) :
    ∀ (st : Store) (qty : Int) (k : Nat), lookupOrd st k = none →
      lookupOrd (executeQtyGo st qty oids).2.2 k = none := by
  induction oids with
  | nil => intro st qty k h; simpa [executeQtyGo] using h
  | cons i rest ih =>
      intro st qty k h
      by_cases hq : qty ≤ 0
      · simpa [executeQtyGo, hq] using h
      · simp only [executeQtyGo, if_neg hq]
        cases hlk : lookupOrd st i with
        | none => simpa using h
        | some o =>
            simp only []
            by_cases hex : (if qty < o.remaining_quantity then qty else o.remaining_quantity) > 0
            · simp only [if_pos hex]
              have hki : k ≠ i := by
                intro he; rw [he, hlk] at h; exact Option.noConfusion h
              have hup : lookupOrd (updateOrd st i (o.execute
                  (if qty < o.remaining_quantity then qty else o.remaining_quantity))) k = none := by
                rw [lookupOrd_updateOrd_ne _ _ _ _ hki]; exact h
              by_cases hfil : (o.execute
                  (if qty < o.remaining_quantity then qty else o.remaining_quantity)).is_filled
              · simp only [hfil, if_pos]
                have := ih (updateOrd st i (o.execute
                  (if qty < o.remaining_quantity then qty else o.remaining_quantity)))
                  (qty - (if qty < o.remaining_quantity then qty else o.remaining_quantity)) k hup
                simpa using this
              · simp only [hfil]
                simpa using hup
            · simp only [if_neg hex]
              by_cases hfil : o.is_filled
              · simp only [hfil, if_pos]
                exact ih st qty k h
              · simpa [hfil] using h

theorem execute_quantity_lookup_none (st : Store) (L : PriceLevel) (qty : Int)
    (k : Nat) (h : lookupOrd st k = none) :
    lookupOrd (L.execute_quantity st qty).2.2 k = none := by
  unfold PriceLevel.execute_quantity
  split
  · exact h
  · exact executeQtyGo_lookup_none L.orders st qty k h

theorem matchWalk_lookup_none (pOk : Int → Bool) (tif : TimeInForce) (tq : Int)
    (levels : List PriceLevel) :
    ∀ (st : Store) (remaining : Int) (k : Nat), lookupOrd st k = none →
      lookupOrd (matchWalk pOk tif tq st remaining levels).2.2.1 k = none := by
  induction levels with
  | nil => intro st r k h; simpa [matchWalk] using h
  | cons L rest ih =>
      intro st r k h
      have h1 := execute_quantity_lookup_none st L r k h
      simp only [matchWalk]
      split
      · exact h
      · split
        · exact h
        · split
          · split
            · exact h1
            · exact ih _ _ k h1
          · exact h1

theorem matchWalk_nonpos (pOk : Int → Bool) (tif : TimeInForce) (tq : Int)
    (st : Store) (remaining : Int) (levels : List PriceLevel)
    (h : remaining ≤ 0) :
    matchWalk pOk tif tq st remaining levels = ([], levels, st, remaining) := by
  cases levels with
  | nil => simp [matchWalk]
  | cons L rest => simp [matchWalk, h]

/-- The taker object keeps its time-in-force through a limit match. -/
theorem match_limit_order_tif (b : OrderBook) (o : Order) :
    (b.match_limit_order o).2.2.time_in_force = o.time_in_force := by
  unfold OrderBook.match_limit_order
  split
  · rfl
  · cases o.side <;> dsimp only <;> split <;> rfl

/-- A limit match never adds keys to the id index. -/
theorem match_limit_order_lookup_none (b : OrderBook) (o : Order) (k : Nat)
    (h : lookupOrd b.orders k = none) :
    lookupOrd (b.match_limit_order o).2.1.orders k = none := by
  unfold OrderBook.match_limit_order
  split
  · exact h
  · cases o.side <;> dsimp only <;> split <;>
      exact matchWalk_lookup_none _ _ _ _ _ _ k h

/-- A market match never adds keys to the id index. -/
theorem match_market_order_lookup_none (b : OrderBook) (o : Order) (k : Nat)
    (h : lookupOrd b.orders k = none) :
    lookupOrd (b.match_market_order o).2.1.orders k = none := by
  unfold OrderBook.match_market_order
  split
  · exact h
  · cases o.side <;> dsimp only <;> split <;>
      exact matchWalk_lookup_none _ _ _ _ _ _ k h

/-- C8: a MARKET taker, or a LIMIT taker with time-in-force IOC, is never
added to the book by submit: `order_by_id` of its (previously unused) id
still returns none afterwards. -/
theorem market_ioc_taker_never_rests (b : OrderBook) (o : Order)
    (hfresh : b.get_order o.id = none)
    (hty : o.type = OrderType.MARKET ∨
      (o.type = OrderType.LIMIT ∧ o.time_in_force = TimeInForce.IOC)) :
    (b.add_order o).2.1.get_order o.id = none := by
  unfold OrderBook.add_order
  split
  · exact hfresh
  · dsimp only
    rcases hty with hty | ⟨hty, htif⟩
    · rw [show (o.set_status OrderStatus.ACCEPTED).type = OrderType.MARKET from hty]
      exact match_market_order_lookup_none b _ o.id hfresh
    · rw [show (o.set_status OrderStatus.ACCEPTED).type = OrderType.LIMIT from hty]
      dsimp only
      have htif2 : (b.match_limit_order
          (o.set_status OrderStatus.ACCEPTED)).2.2.time_in_force = TimeInForce.IOC := by
        rw [match_limit_order_tif]; exact htif
      rw [if_neg (fun hcon => hcon.2 htif2)]
      exact match_limit_order_lookup_none b _ o.id hfresh

/-- Witness for `market_ioc_taker_never_rests`: an IOC limit buy against
a smaller resting ask is filled partially and discarded, not rested. -/
theorem market_ioc_taker_never_rests_witness :
    (bookS4.add_order
        (mkOrder 1005 Side.BUY OrderType.LIMIT 100000 1030000 TimeInForce.IOC)).2.1.get_order
      1005 = none :=
  market_ioc_taker_never_rests bookS4
    (mkOrder 1005 Side.BUY OrderType.LIMIT 100000 1030000 TimeInForce.IOC)
    (by decide) (Or.inr ⟨rfl, rfl⟩)

/-- A limit match of a zero-quantity fresh order produces no fills,
leaves the book untouched, and closes the order as filled (its executed
quantity, zero, equals its total quantity, zero). -/
theorem match_limit_order_zero (b : OrderBook) (o : Order)
    (hq : o.quantity = 0) (he : o.executed_quantity = 0)
    (hty : o.type = OrderType.LIMIT) :
    (b.match_limit_order o).1 = [] ∧ (b.match_limit_order o).2.1 = b ∧
    (b.match_limit_order o).2.2.is_filled = true := by
  have hrem : o.remaining_quantity = 0 := by
    simp [Order.remaining_quantity, hq, he]
  unfold OrderBook.match_limit_order
  rw [if_neg (not_not_intro hty)]
  cases o.side <;>
    · dsimp only
      rw [hrem, matchWalk_nonpos _ _ _ _ _ _ (le_refl 0)]
      dsimp only
      rw [if_neg (fun hc => lt_irrefl 0 hc.2)]
      refine ⟨rfl, ?_, ?_⟩
      · simp only [sub_zero, sub_self]
      · simp [Order.execute, Order.is_filled, Order.remaining_quantity, hq, he]

/-- A market match of a zero-quantity fresh order produces no fills and
leaves the book untouched. -/
theorem match_market_order_zero (b : OrderBook) (o : Order)
    (hq : o.quantity = 0) (he : o.executed_quantity = 0)
    (hty : o.type = OrderType.MARKET) :
    (b.match_market_order o).1 = [] ∧ (b.match_market_order o).2.1 = b := by
  have hrem : o.remaining_quantity = 0 := by
    simp [Order.remaining_quantity, hq, he]
  unfold OrderBook.match_market_order
  rw [if_neg (not_not_intro hty)]
  cases o.side <;>
    · dsimp only
      rw [hrem, matchWalk_nonpos _ _ _ _ _ _ (le_refl 0)]
      dsimp only
      rw [if_neg (fun hc => lt_irrefl 0 hc.2)]
      refine ⟨rfl, ?_⟩
      simp only [sub_zero, sub_self]

/-- C7 as amended: a submit with a null (zero) id or a zero quantity
returns an empty match list and leaves the order off the book
(`order_by_id` of its fresh id still returns none); but a LIMIT order
with zero price is NOT rejected — `Order::is_valid` checks only the id —
and can match and rest (see the counterexample). -/
theorem invalid_submission_not_added (b : OrderBook) (o : Order)
    (hfresh : b.get_order o.id = none) (he : o.executed_quantity = 0)
    (hinv : o.id = 0 ∨ o.quantity = 0) :
    (b.add_order o).1 = [] ∧ (b.add_order o).2.1.get_order o.id = none := by
  unfold OrderBook.add_order
  by_cases hv : o.is_valid
  · rw [if_neg (not_not_intro hv)]
    dsimp only
    rcases hinv with h0 | hq
    · have : ¬ o.id = 0 := by simpa [Order.is_valid] using hv
      exact absurd h0 this
    · cases ht : o.type with
      | LIMIT =>
          rw [show (o.set_status OrderStatus.ACCEPTED).type = OrderType.LIMIT from ht]
          dsimp only
          obtain ⟨hm1, hm2, hm3⟩ :=
            match_limit_order_zero b (o.set_status OrderStatus.ACCEPTED) hq he ht
          rw [if_neg (fun hc => hc.1 hm3)]
          exact ⟨hm1, by rw [show ((b.match_limit_order
            (o.set_status OrderStatus.ACCEPTED)).2.1 : OrderBook) = b from hm2]; exact hfresh⟩
      | MARKET =>
          rw [show (o.set_status OrderStatus.ACCEPTED).type = OrderType.MARKET from ht]
          obtain ⟨hm1, hm2⟩ :=
            match_market_order_zero b (o.set_status OrderStatus.ACCEPTED) hq he ht
          exact ⟨hm1, by rw [show ((b.match_market_order
            (o.set_status OrderStatus.ACCEPTED)).2.1 : OrderBook) = b from hm2]; exact hfresh⟩
  · rw [if_pos hv]
    exact ⟨rfl, hfresh⟩

/-- Witness for `invalid_submission_not_added`: a zero-quantity GTC limit
buy on the empty book. -/
theorem invalid_submission_not_added_witness :
    (emptyBook.add_order (mkOrder 8 Side.BUY OrderType.LIMIT 0 1000000 TimeInForce.GTC)).1 = []
    ∧ (emptyBook.add_order
        (mkOrder 8 Side.BUY OrderType.LIMIT 0 1000000 TimeInForce.GTC)).2.1.get_order 8
      = none :=
  invalid_submission_not_added emptyBook
    (mkOrder 8 Side.BUY OrderType.LIMIT 0 1000000 TimeInForce.GTC)
    (by decide) (by decide) (Or.inr (by decide))

/-! ### Level-map lemmas -/

theorem updateLevel_cons_pos {M : PriceLevel} {p : Int} (rest : List PriceLevel)
    (L' : PriceLevel) (h : M.price = p) :
    updateLevel (M :: rest) p L' = L' :: rest := by
  simp [updateLevel, h]

theorem updateLevel_cons_neg {M : PriceLevel} {p : Int} (rest : List PriceLevel)
    (L' : PriceLevel) (h : ¬ M.price = p) :
    updateLevel (M :: rest) p L' = M :: updateLevel rest p L' := by
  simp [updateLevel, h]

theorem findLevel_updateLevel (ls : List PriceLevel) (p : Int) (L L' : PriceLevel)
    (h : findLevel ls p = some L) (hp : L'.price = p) :
    findLevel (updateLevel ls p L') p = some L' := by
  induction ls with
  | nil => simp [findLevel] at h
  | cons M rest ih =>
      by_cases hM : M.price = p
      · rw [updateLevel_cons_pos rest L' hM]
        exact List.find?_cons_of_pos _ (by simp [hp])
      · rw [updateLevel_cons_neg rest L' hM]
        unfold findLevel at h ⊢
        rw [List.find?_cons_of_neg _ (by simp [hM])] at h
        rw [List.find?_cons_of_neg _ (by simp [hM])]
        exact ih h

theorem findLevel_price (ls : List PriceLevel) (p : Int) (L : PriceLevel)
    (h : findLevel ls p = some L) : L.price = p := by
  unfold findLevel at h
  simpa using List.find?_some h

/-- The two-sided contract of `OrderBook::cancel_order`: a miss (no such
id resting) returns false with the book untouched; a hit removes the
order from its level and the index, adjusts the side total by the
remaining quantity, drops the level if emptied, and returns true with the
order object put through `Order::cancel`. -/
theorem cancel_order_cases (b : OrderBook) (i : Nat) :
    (restingIn b i = false → b.cancel_order i = (false, b, lookupOrd b.orders i)) ∧
    (∀ o L, lookupOrd b.orders i = some o →
      findLevel (b.sideLevels o.side) o.price = some L →
      i ∈ L.orders →
      b.cancel_order i = (true, cancelExpected b o L i, some o.cancel)) := by
  constructor
  · intro hnr
    unfold OrderBook.cancel_order
    cases hlk : lookupOrd b.orders i with
    | none => rfl
    | some o =>
        unfold restingIn at hnr
        rw [hlk] at hnr
        dsimp only at hnr ⊢
        cases hside : o.side <;>
          rw [hside] at hnr <;> dsimp only [OrderBook.sideLevels] at hnr <;>
          dsimp only
        case BUY =>
          cases hfl : findLevel b.bids o.price with
          | none => rfl
          | some L =>
              rw [hfl] at hnr
              dsimp only at hnr
              have hni : i ∉ L.orders := by simpa using hnr
              dsimp only
              rw [show L.remove_order b.orders i = (false, L) from by
                unfold PriceLevel.remove_order
                rw [if_neg hni]]
              rfl
        case SELL =>
          cases hfl : findLevel b.asks o.price with
          | none => rfl
          | some L =>
              rw [hfl] at hnr
              dsimp only at hnr
              have hni : i ∉ L.orders := by simpa using hnr
              dsimp only
              rw [show L.remove_order b.orders i = (false, L) from by
                unfold PriceLevel.remove_order
                rw [if_neg hni]]
              rfl
  · intro o L hlk hfl hmem
    have hrm : PriceLevel.remove_order b.orders L i =
        (true,
         { L with
             orders := L.orders.erase i,
             total_quantity := L.total_quantity - o.remaining_quantity }) := by
      unfold PriceLevel.remove_order
      rw [if_pos hmem, hlk]
    unfold OrderBook.cancel_order
    rw [hlk]
    unfold cancelExpected
    dsimp only
    cases hside : o.side <;>
      rw [hside] at hfl <;> dsimp only [OrderBook.sideLevels] at hfl <;>
      dsimp only <;> rw [hfl] <;> dsimp only <;> rw [hrm] <;>
      dsimp only <;>
      unfold OrderBook.remove_price_level_if_empty <;> dsimp only <;>
      rw [findLevel_updateLevel _ _ L
        { L with
            orders := L.orders.erase i,
            total_quantity := L.total_quantity - o.remaining_quantity } hfl
        (findLevel_price _ _ L hfl)] <;> dsimp only <;>
      by_cases hemp : (L.orders.erase i).isEmpty = true <;>
      simp only [hemp, ite_true, ite_false, Bool.false_eq_true]

/-- C2 as amended: cancel of an id that is not resting returns false and
leaves the book unchanged (the looked-up object, if any, is untouched);
cancel of a resting order removes it from its level and the id index,
decreases its side total by the remaining quantity, drops the level if it
became empty, returns true — and transitions the status to CANCELLED only
when the order is still active (`Order::cancel` is a no-op on a REPLACED
resting order, see the counterexample). -/
theorem cancel_order_spec (b : OrderBook) (i : Nat) :
    (restingIn b i = false → b.cancel_order i = (false, b, lookupOrd b.orders i)) ∧
    (∀ o L, lookupOrd b.orders i = some o →
      findLevel (b.sideLevels o.side) o.price = some L →
      i ∈ L.orders →
      b.cancel_order i = (true, cancelExpected b o L i, some o.cancel)) :=
  cancel_order_cases b i

/-- Witness for `cancel_order_spec`: cancelling the resting maker 2001 of
`bookS4`. -/
theorem cancel_order_spec_witness :
    bookS4.cancel_order 2001 =
      (true,
       cancelExpected bookS4
         { id := 2001, side := Side.SELL, type := OrderType.LIMIT,
           quantity := 80000, executed_quantity := 0, price := 1020000,
           time_in_force := TimeInForce.GTC, status := OrderStatus.ACCEPTED }
         { price := 1020000, orders := [2001], total_quantity := 80000 } 2001,
       some ({ id := 2001, side := Side.SELL, type := OrderType.LIMIT,
               quantity := 80000, executed_quantity := 0, price := 1020000,
               time_in_force := TimeInForce.GTC,
               status := OrderStatus.ACCEPTED } : Order).cancel) :=
  (cancel_order_spec bookS4 2001).2
    { id := 2001, side := Side.SELL, type := OrderType.LIMIT,
      quantity := 80000, executed_quantity := 0, price := 1020000,
      time_in_force := TimeInForce.GTC, status := OrderStatus.ACCEPTED }
    { price := 1020000, orders := [2001], total_quantity := 80000 }
    (by decide) (by decide) (by decide)

theorem updateLevel_findLevel_self (ls : List PriceLevel) (p : Int) (L : PriceLevel)
    (h : findLevel ls p = some L) : updateLevel ls p L = ls := by
  induction ls with
  | nil => rfl
  | cons M rest ih =>
      by_cases hM : M.price = p
      · rw [updateLevel_cons_pos rest L hM]
        unfold findLevel at h
        rw [List.find?_cons_of_pos _ (by simp [hM])] at h
        cases h
        rfl
      · rw [updateLevel_cons_neg rest L hM]
        unfold findLevel at h
        rw [List.find?_cons_of_neg _ (by simp [hM])] at h
        rw [ih h]

/-- The quantity-underflow fast path of `OrderBook::modify_order`
resolves to a failing in-place update: no matches, level and side totals
untouched, queue position untouched, and the only mutation is the
unconditional REPLACED status stamp on the order. -/
theorem modify_underflow_replaced (b : OrderBook) (i : Nat) (o : Order) (nq : Int)
    (hlk : lookupOrd b.orders i = some o)
    (hlt : nq < o.executed_quantity)
    (hexec : o.executed_quantity ≤ o.quantity) :
    b.modify_order i none (some nq) =
      ([], { b with orders := updateOrd b.orders i (o.set_status OrderStatus.REPLACED) }) := by
  have hmq : ∀ L : PriceLevel, L.modify_order_quantity b.orders i nq = (false, L, b.orders) := by
    intro L
    unfold PriceLevel.modify_order_quantity
    by_cases hm : i ∈ L.orders
    · rw [if_pos hm, hlk]
      dsimp only
      rw [if_pos hlt]
    · rw [if_neg hm]
  unfold OrderBook.modify_order
  rw [if_neg (fun hc => Option.noConfusion hc.2), hlk]
  dsimp only
  rw [if_pos (le_trans (le_of_lt hlt) hexec)]
  cases hside : o.side <;> dsimp only
  case BUY =>
    cases hfl : findLevel b.bids o.price with
    | none =>
        dsimp only
        rw [hlk]
    | some L =>
        dsimp only
        rw [hmq L]
        dsimp only
        rw [hlk]
        dsimp only
        rw [updateLevel_findLevel_self b.bids o.price L hfl,
          show b.total_bid_quantity - o.remaining_quantity + o.remaining_quantity
            = b.total_bid_quantity from by ring]
  case SELL =>
    cases hfl : findLevel b.asks o.price with
    | none =>
        dsimp only
        rw [hlk]
    | some L =>
        dsimp only
        rw [hmq L]
        dsimp only
        rw [hlk]
        dsimp only
        rw [updateLevel_findLevel_self b.asks o.price L hfl,
          show b.total_ask_quantity - o.remaining_quantity + o.remaining_quantity
            = b.total_ask_quantity from by ring]

/-- Witness for `modify_underflow_replaced` on `bookPartialBid`. -/
theorem modify_underflow_replaced_witness :
    bookPartialBid.modify_order 5 none (some 20000) =
      ([], { bookPartialBid with
               orders := updateOrd bookPartialBid.orders 5
                 (({ id := 5, side := Side.BUY, type := OrderType.LIMIT,
                     quantity := 100000, executed_quantity := 40000, price := 1000000,
                     time_in_force := TimeInForce.GTC,
                     status := OrderStatus.PARTIALLY_FILLED } : Order).set_status
                   OrderStatus.REPLACED) }) :=
  modify_underflow_replaced bookPartialBid 5
    { id := 5, side := Side.BUY, type := OrderType.LIMIT,
      quantity := 100000, executed_quantity := 40000, price := 1000000,
      time_in_force := TimeInForce.GTC, status := OrderStatus.PARTIALLY_FILLED }
    20000 (by decide) (by decide) (by decide)

/-! ### Execute mini-lemmas -/

theorem Order.execute_executed_of_le {o : Order} {q : Int}
    (h : q ≤ o.remaining_quantity) :
    (o.execute q).executed_quantity = o.executed_quantity + q := by
  unfold Order.execute
  dsimp only
  rw [if_neg (not_lt.mpr h)]

theorem Order.execute_status_of_le {o : Order} {q : Int}
    (h : q ≤ o.remaining_quantity) :
    (o.execute q).status =
      if o.executed_quantity + q = o.quantity then OrderStatus.FILLED
      else if o.executed_quantity + q > 0 then OrderStatus.PARTIALLY_FILLED
      else o.status := by
  unfold Order.execute
  dsimp only
  rw [if_neg (not_lt.mpr h)]

theorem statusOK_ne_filled {o : Order} (h : statusOKForLevel o) :
    o.status ≠ OrderStatus.FILLED := by
  rcases h with h | h | h | h <;> simp [h]

theorem statusOK_ne_new {o : Order} (h : statusOKForLevel o) :
    o.status ≠ OrderStatus.NEW := by
  rcases h with h | h | h | h <;> simp [h]

/-- For a level order (status not FILLED) a fill of `0 < q ≤ remaining`
leaves it filled exactly when the whole remainder was consumed. -/
theorem Order.execute_filled_iff {o : Order} {q : Int}
    (hle : q ≤ o.remaining_quantity) (hns : o.status ≠ OrderStatus.FILLED) :
    (o.execute q).is_filled = true ↔ q = o.remaining_quantity := by
  unfold Order.is_filled
  rw [Order.execute_executed_of_le hle, Order.execute_status_of_le hle]
  show (decide (o.executed_quantity + q = o.quantity) ||
    decide ((if o.executed_quantity + q = o.quantity then OrderStatus.FILLED
      else if o.executed_quantity + q > 0 then OrderStatus.PARTIALLY_FILLED
      else o.status) = OrderStatus.FILLED)) = true ↔ q = o.remaining_quantity
  unfold Order.remaining_quantity
  split_ifs with h1 h2 <;> simp_all <;> omega

theorem Order.execute_remaining_of_le {o : Order} {q : Int}
    (h : q ≤ o.remaining_quantity) :
    (o.execute q).remaining_quantity = o.remaining_quantity - q := by
  show (o.execute q).quantity - (o.execute q).executed_quantity = _
  rw [Order.execute_executed_of_le h]
  show o.quantity - (o.executed_quantity + q) = o.quantity - o.executed_quantity - q
  ring

theorem fillsTotal_nil : fillsTotal [] = 0 := rfl

theorem fillsTotal_cons (f : Nat × Int) (l : List (Nat × Int)) :
    fillsTotal (f :: l) = f.2 + fillsTotal l := by
  simp [fillsTotal]

theorem fillsTotal_append (l₁ l₂ : List (Nat × Int)) :
    fillsTotal (l₁ ++ l₂) = fillsTotal l₁ + fillsTotal l₂ := by
  simp [fillsTotal]

/-- Master specification of the `PriceLevel::execute_quantity` loop body
on a well-formed store: the surviving queue is a suffix, only the level's
own orders are touched, well-formedness is preserved, surviving members
keep price/side/status shape, the sum of remaining quantities drops by
exactly the total filled, and the total filled lies in `[0, qty]`. -/
theorem executeQtyGo_spec (p : Int) (s : Side) :
    ∀ (oids : List Nat) (st : Store) (qty : Int),
      StoreWF st →
      oids.Nodup →
      (∀ j ∈ oids, ∃ o, lookupOrd st j = some o ∧ o.price = p ∧ o.side = s ∧
        statusOKForLevel o) →
      0 ≤ qty →
      (∃ n, (executeQtyGo st qty oids).2.1 = oids.drop n) ∧
      (∀ k, k ∉ oids → lookupOrd (executeQtyGo st qty oids).2.2 k = lookupOrd st k) ∧
      StoreWF (executeQtyGo st qty oids).2.2 ∧
      (∀ j ∈ (executeQtyGo st qty oids).2.1, ∃ o,
        lookupOrd (executeQtyGo st qty oids).2.2 j = some o ∧ o.price = p ∧
        o.side = s ∧ statusOKForLevel o) ∧
      sumRemaining (executeQtyGo st qty oids).2.2 (executeQtyGo st qty oids).2.1
        = sumRemaining st oids - fillsTotal (executeQtyGo st qty oids).1 ∧
      0 ≤ fillsTotal (executeQtyGo st qty oids).1 ∧
      fillsTotal (executeQtyGo st qty oids).1 ≤ qty := by
  intro oids
  induction oids with
  | nil =>
      intro st qty hwf hnd hmem hq
      refine ⟨⟨0, rfl⟩, fun k _ => rfl, hwf, ?_, ?_, le_refl 0, hq⟩
      · intro j hj
        exact absurd hj (List.not_mem_nil j)
      · show sumRemaining st [] = sumRemaining st [] - fillsTotal []
        rw [fillsTotal_nil, sumRemaining_nil]
        ring
  | cons i rest ih =>
      intro st qty hwf hnd hmem hq
      obtain ⟨o, hlk, hop, hos, hok⟩ := hmem i (List.mem_cons_self i rest)
      obtain ⟨hid, hex0, hexq⟩ := hwf.lookup_props hlk
      have hnd' : rest.Nodup := (List.nodup_cons.1 hnd).2
      have hni : i ∉ rest := (List.nodup_cons.1 hnd).1
      have hrem0 : 0 ≤ o.remaining_quantity := by
        unfold Order.remaining_quantity
        omega
      by_cases hq0 : qty ≤ 0
      · have he : executeQtyGo st qty (i :: rest) = ([], i :: rest, st) := by
          unfold executeQtyGo
          rw [if_pos hq0]
        rw [he]
        refine ⟨⟨0, rfl⟩, fun k _ => rfl, hwf, hmem, ?_, le_refl 0, hq⟩
        rw [fillsTotal_nil]
        ring
      · have hexle : (if qty < o.remaining_quantity then qty else o.remaining_quantity)
            ≤ o.remaining_quantity := by
          split_ifs with h <;> omega
        have hexqty : (if qty < o.remaining_quantity then qty else o.remaining_quantity)
            ≤ qty := by
          split_ifs with h <;> omega
        by_cases hexpos : (if qty < o.remaining_quantity then qty else o.remaining_quantity) > 0
        · -- a positive fill on the head
          have hwf' : StoreWF (updateOrd st i
              (o.execute (if qty < o.remaining_quantity then qty else o.remaining_quantity))) := by
            refine hwf.updateOrd ?_ ?_ ?_
            · show o.id = i
              exact hid
            · rw [Order.execute_executed_of_le hexle]
              omega
            · rw [Order.execute_executed_of_le hexle]
              show o.executed_quantity + _ ≤ o.quantity
              have hre : o.remaining_quantity = o.quantity - o.executed_quantity := rfl
              omega
          have hlk' : lookupOrd (updateOrd st i
              (o.execute (if qty < o.remaining_quantity then qty else o.remaining_quantity))) i
              = some (o.execute (if qty < o.remaining_quantity then qty else o.remaining_quantity)) := by
            rw [lookupOrd_updateOrd_self, hlk]
            rfl
          have hstable : ∀ j ∈ rest, lookupOrd (updateOrd st i
              (o.execute (if qty < o.remaining_quantity then qty else o.remaining_quantity))) j
              = lookupOrd st j := by
            intro j hj
            exact lookupOrd_updateOrd_ne st i _ j (fun he => hni (he ▸ hj))
          by_cases hfil : (o.execute
              (if qty < o.remaining_quantity then qty else o.remaining_quantity)).is_filled
          · -- head fully consumed and popped; the loop continues on the tail
            have hEr : (if qty < o.remaining_quantity then qty else o.remaining_quantity)
                = o.remaining_quantity :=
              (Order.execute_filled_iff hexle (statusOK_ne_filled hok)).1 hfil
            have he : executeQtyGo st qty (i :: rest) =
                ((i, if qty < o.remaining_quantity then qty else o.remaining_quantity) ::
                  (executeQtyGo (updateOrd st i (o.execute
                    (if qty < o.remaining_quantity then qty else o.remaining_quantity)))
                    (qty - (if qty < o.remaining_quantity then qty else o.remaining_quantity))
                    rest).1,
                 (executeQtyGo (updateOrd st i (o.execute
                    (if qty < o.remaining_quantity then qty else o.remaining_quantity)))
                    (qty - (if qty < o.remaining_quantity then qty else o.remaining_quantity))
                    rest).2.1,
                 (executeQtyGo (updateOrd st i (o.execute
                    (if qty < o.remaining_quantity then qty else o.remaining_quantity)))
                    (qty - (if qty < o.remaining_quantity then qty else o.remaining_quantity))
                    rest).2.2) := by
              conv_lhs => rw [executeQtyGo]
              rw [if_neg hq0, hlk]
              dsimp only
              rw [if_pos hexpos, if_pos hfil]
            obtain ⟨ihsuf, ihst, ihwf, ihmem, ihsum, ihf0, ihfq⟩ :=
              ih (updateOrd st i (o.execute
                  (if qty < o.remaining_quantity then qty else o.remaining_quantity)))
                (qty - (if qty < o.remaining_quantity then qty else o.remaining_quantity))
                hwf' hnd'
                (fun j hj => by
                  obtain ⟨o2, h2, h3, h4, h5⟩ := hmem j (List.mem_cons_of_mem i hj)
                  exact ⟨o2, (hstable j hj).trans h2, h3, h4, h5⟩)
                (by omega)
            rw [he]
            have hsum' : sumRemaining (updateOrd st i (o.execute
                (if qty < o.remaining_quantity then qty else o.remaining_quantity))) rest
                = sumRemaining st rest :=
              sumRemaining_congr hstable
            refine ⟨?_, ?_, ihwf, ihmem, ?_, ?_, ?_⟩
            · obtain ⟨n, hn⟩ := ihsuf
              exact ⟨n + 1, by rw [List.drop_succ_cons]; exact hn⟩
            · intro k hk
              have hkni : k ≠ i := fun he2 => hk (he2 ▸ List.mem_cons_self i rest)
              have hknr : k ∉ rest := fun he2 => hk (List.mem_cons_of_mem i he2)
              rw [ihst k hknr]
              exact lookupOrd_updateOrd_ne st i _ k hkni
            · rw [fillsTotal_cons, ihsum, hsum', sumRemaining_cons, hlk]
              dsimp only
              omega
            · rw [fillsTotal_cons]
              dsimp only
              omega
            · rw [fillsTotal_cons]
              dsimp only
              omega
          · -- head partially consumed: the request is exhausted
            have hEne : (if qty < o.remaining_quantity then qty else o.remaining_quantity)
                ≠ o.remaining_quantity := by
              intro hcon
              exact hfil ((Order.execute_filled_iff hexle (statusOK_ne_filled hok)).2 hcon)
            have he : executeQtyGo st qty (i :: rest) =
                ([(i, if qty < o.remaining_quantity then qty else o.remaining_quantity)],
                 i :: rest,
                 updateOrd st i (o.execute
                   (if qty < o.remaining_quantity then qty else o.remaining_quantity))) := by
              unfold executeQtyGo
              rw [if_neg hq0, hlk]
              dsimp only
              rw [if_pos hexpos, if_neg hfil]
            rw [he]
            refine ⟨⟨0, rfl⟩, ?_, hwf', ?_, ?_, ?_, ?_⟩
            · intro k hk
              exact lookupOrd_updateOrd_ne st i _ k
                (fun he2 => hk (he2 ▸ List.mem_cons_self i rest))
            · intro j hj
              rcases List.mem_cons.1 hj with hj | hj
              · subst hj
                refine ⟨_, hlk', hop, hos, ?_⟩
                show statusOKForLevel _
                unfold statusOKForLevel
                rw [Order.execute_status_of_le hexle]
                have h1 : o.executed_quantity +
                    (if qty < o.remaining_quantity then qty else o.remaining_quantity)
                    ≠ o.quantity := by
                  unfold Order.remaining_quantity at hEne
                  omega
                rw [if_neg h1, if_pos (by omega)]
                exact Or.inr (Or.inl rfl)
              · obtain ⟨o2, h2, h3, h4, h5⟩ := hmem j (List.mem_cons_of_mem i hj)
                exact ⟨o2, (hstable j hj).trans h2, h3, h4, h5⟩
            · rw [fillsTotal_cons, fillsTotal_nil]
              rw [sumRemaining_cons, sumRemaining_cons, hlk', hlk]
              dsimp only
              rw [sumRemaining_congr hstable]
              rw [Order.execute_remaining_of_le hexle]
              ring
            · rw [fillsTotal_cons, fillsTotal_nil]
              dsimp only
              omega
            · rw [fillsTotal_cons, fillsTotal_nil]
              dsimp only
              omega
        · -- stale zero-remaining head: popped without a fill
          have hEr : (if qty < o.remaining_quantity then qty else o.remaining_quantity)
              = o.remaining_quantity := by
            split_ifs with h
            · omega
            · rfl
          have hrz : o.remaining_quantity = 0 := by omega
          have hfil : o.is_filled = true := by
            unfold Order.is_filled
            unfold Order.remaining_quantity at hrz
            simp [show o.executed_quantity = o.quantity from by omega]
          have he : executeQtyGo st qty (i :: rest) = executeQtyGo st qty rest := by
            conv_lhs => rw [executeQtyGo]
            rw [if_neg hq0, hlk]
            dsimp only
            rw [if_neg hexpos, if_pos hfil]
          obtain ⟨ihsuf, ihst, ihwf, ihmem, ihsum, ihf0, ihfq⟩ :=
            ih st qty hwf hnd'
              (fun j hj => hmem j (List.mem_cons_of_mem i hj)) hq
          rw [he]
          refine ⟨?_, ?_, ihwf, ihmem, ?_, ihf0, ihfq⟩
          · obtain ⟨n, hn⟩ := ihsuf
            exact ⟨n + 1, by rw [List.drop_succ_cons]; exact hn⟩
          · intro k hk
            exact ihst k (fun he2 => hk (List.mem_cons_of_mem i he2))
          · rw [sumRemaining_cons, hlk]
            dsimp only
            rw [ihsum]
            omega

theorem LevelWF_congr {st st' : Store} {s : Side} {M : PriceLevel}
    (h : LevelWF st s M) (hst : ∀ j ∈ M.orders, lookupOrd st' j = lookupOrd st j) :
    LevelWF st' s M := by
  refine ⟨?_, h.nodup, ?_⟩
  · rw [h.total_eq]
    exact (sumRemaining_congr hst).symm
  · intro j hj
    obtain ⟨o, h1, h2, h3, h4⟩ := h.mems j hj
    exact ⟨o, (hst j hj).trans h1, h2, h3, h4⟩

/-- Two well-formed levels of the same side at different prices hold
disjoint order ids. -/
theorem levelWF_disjoint {st : Store} {s : Side} {L M : PriceLevel}
    (hL : LevelWF st s L) (hM : LevelWF st s M) (hp : M.price ≠ L.price) :
    ∀ j ∈ M.orders, j ∉ L.orders := by
  intro j hjM hjL
  obtain ⟨o1, e1, p1, _, _⟩ := hL.mems j hjL
  obtain ⟨o2, e2, p2, _, _⟩ := hM.mems j hjM
  rw [e1] at e2
  injection e2 with e3
  exact hp (by rw [← e3] at p2; rw [← p1, ← p2])

/-- An order on the other side is never a member of a side-`s` level. -/
theorem levelWF_not_mem_of_side_ne {st : Store} {s : Side} {L : PriceLevel}
    (hL : LevelWF st s L) {k : Nat} {o2 : Order}
    (hk : lookupOrd st k = some o2) (hs : o2.side ≠ s) : k ∉ L.orders := by
  intro hmem
  obtain ⟨o1, e1, _, s1, _⟩ := hL.mems k hmem
  rw [hk] at e1
  injection e1 with e3
  exact hs (by rw [e3]; exact s1)

/-- Specification of `PriceLevel::execute_quantity` on a well-formed
level: price preserved, store and level well-formedness preserved, only
this level's orders touched, cached total decreased by the filled total,
which lies in `[0, qty]`. -/
theorem execute_quantity_spec (s : Side) (st : Store) (L : PriceLevel) (qty : Int)
    (fills : List (Nat × Int)) (L' : PriceLevel) (st' : Store)
    (hwf : StoreWF st) (hLwf : LevelWF st s L) (hq : 0 ≤ qty)
    (heq : L.execute_quantity st qty = (fills, L', st')) :
    L'.price = L.price ∧ StoreWF st' ∧ LevelWF st' s L' ∧
    (∀ k, k ∉ L.orders → lookupOrd st' k = lookupOrd st k) ∧
    L'.total_quantity = L.total_quantity - fillsTotal fills ∧
    0 ≤ fillsTotal fills ∧ fillsTotal fills ≤ qty := by
  unfold PriceLevel.execute_quantity at heq
  split at heq
  · rw [Prod.mk.injEq, Prod.mk.injEq] at heq
    obtain ⟨h1, h2, h3⟩ := heq
    subst h1; subst h2; subst h3
    refine ⟨rfl, hwf, hLwf, fun k _ => rfl, by rw [fillsTotal_nil]; ring,
      le_refl 0, hq⟩
  · obtain ⟨hsuf, hstab, hwf2, hmem2, hsum2, hf0, hfq⟩ :=
      executeQtyGo_spec L.price s L.orders st qty hwf hLwf.nodup hLwf.mems hq
    rw [Prod.mk.injEq, Prod.mk.injEq] at heq
    obtain ⟨h1, h2, h3⟩ := heq
    subst h1
    subst h3
    rw [← h2]
    refine ⟨rfl, hwf2, ?_, hstab, rfl, hf0, hfq⟩
    refine ⟨?_, ?_, ?_⟩
    · show L.total_quantity - fillsTotal (executeQtyGo st qty L.orders).1
        = sumRemaining (executeQtyGo st qty L.orders).2.2 (executeQtyGo st qty L.orders).2.1
      rw [hsum2, hLwf.total_eq]
    · obtain ⟨n, hn⟩ := hsuf
      rw [hn]
      exact hLwf.nodup.sublist (List.drop_sublist n L.orders)
    · exact hmem2

/-- Master specification of the matching walk over one side: surviving
level prices form a sublist (so ordering and distinctness survive), store
and level well-formedness are preserved, the sum of level totals and the
remaining taker quantity both drop by exactly the filled total, which
lies in `[0, remaining]`, and orders on the other side are untouched. -/
theorem matchWalk_spec (pOk : Int → Bool) (tif : TimeInForce) (tq : Int) (s : Side) :
    ∀ (levels : List PriceLevel) (st : Store) (remaining : Int)
      (fills : List (Nat × Int)) (levels2 : List PriceLevel) (st2 : Store) (rem2 : Int),
      StoreWF st →
      (∀ L ∈ levels, LevelWF st s L) →
      (levels.map PriceLevel.price).Nodup →
      0 ≤ remaining →
      matchWalk pOk tif tq st remaining levels = (fills, levels2, st2, rem2) →
      (levels2.map PriceLevel.price).Sublist (levels.map PriceLevel.price) ∧
      StoreWF st2 ∧
      (∀ L ∈ levels2, LevelWF st2 s L) ∧
      (levels2.map PriceLevel.total_quantity).sum
        = (levels.map PriceLevel.total_quantity).sum - fillsTotal fills ∧
      rem2 = remaining - fillsTotal fills ∧
      0 ≤ fillsTotal fills ∧ fillsTotal fills ≤ remaining ∧
      (∀ k o2, lookupOrd st k = some o2 → o2.side ≠ s →
        lookupOrd st2 k = lookupOrd st k) := by
  intro levels
  induction levels with
  | nil =>
      intro st remaining fills levels2 st2 rem2 hwf hlv hnp hr heq
      unfold matchWalk at heq
      rw [Prod.mk.injEq, Prod.mk.injEq, Prod.mk.injEq] at heq
      obtain ⟨h1, h2, h3, h4⟩ := heq
      subst h1; subst h2; subst h3; subst h4
      refine ⟨List.Sublist.refl _, hwf, hlv, by rw [fillsTotal_nil]; ring,
        by rw [fillsTotal_nil]; ring, le_refl 0, hr, fun k o2 _ _ => rfl⟩
  | cons L rest ih =>
      intro st remaining fills levels2 st2 rem2 hwf hlv hnp hr heq
      have hLwf : LevelWF st s L := hlv L (List.mem_cons_self L rest)
      have hrestwf : ∀ M ∈ rest, LevelWF st s M :=
        fun M hM => hlv M (List.mem_cons_of_mem L hM)
      have hnp' : (rest.map PriceLevel.price).Nodup := (List.nodup_cons.1 hnp).2
      have hpLnotin : L.price ∉ rest.map PriceLevel.price := (List.nodup_cons.1 hnp).1
      have hpne : ∀ M ∈ rest, M.price ≠ L.price := by
        intro M hM he
        exact hpLnotin (he ▸ List.mem_map_of_mem PriceLevel.price hM)
      rw [matchWalk] at heq
      split at heq
      · -- remaining exhausted before touching this level
        rw [Prod.mk.injEq, Prod.mk.injEq, Prod.mk.injEq] at heq
        obtain ⟨h1, h2, h3, h4⟩ := heq
        subst h1; subst h2; subst h3; subst h4
        refine ⟨List.Sublist.refl _, hwf, hlv, by rw [fillsTotal_nil]; ring,
          by rw [fillsTotal_nil]; ring, le_refl 0, hr, fun k o2 _ _ => rfl⟩
      · split at heq
        · -- price bound reached
          rw [Prod.mk.injEq, Prod.mk.injEq, Prod.mk.injEq] at heq
          obtain ⟨h1, h2, h3, h4⟩ := heq
          subst h1; subst h2; subst h3; subst h4
          refine ⟨List.Sublist.refl _, hwf, hlv, by rw [fillsTotal_nil]; ring,
            by rw [fillsTotal_nil]; ring, le_refl 0, hr, fun k o2 _ _ => rfl⟩
        · -- consume the best level
          rcases hEQE : L.execute_quantity st remaining with ⟨f₁, L₂, st₁⟩
          rw [hEQE] at heq
          dsimp only at heq
          obtain ⟨hL₂p, hwf₁, hL₂wf, hstab₁, hL₂tot, hf₁0, hf₁r⟩ :=
            execute_quantity_spec s st L remaining f₁ L₂ st₁ hwf hLwf hr hEQE
          have hmemstab : ∀ M, M ∈ rest → ∀ j ∈ M.orders,
              lookupOrd st₁ j = lookupOrd st j := by
            intro M hM j hj
            exact hstab₁ j (levelWF_disjoint hLwf (hrestwf M hM) (hpne M hM) j hj)
          have hrestwf₁ : ∀ M ∈ rest, LevelWF st₁ s M :=
            fun M hM => LevelWF_congr (hrestwf M hM) (hmemstab M hM)
          have hsidestab : ∀ k o2, lookupOrd st k = some o2 → o2.side ≠ s →
              lookupOrd st₁ k = lookupOrd st k := by
            intro k o2 hk hs
            exact hstab₁ k (levelWF_not_mem_of_side_ne hLwf hk hs)
          split at heq
          · -- the level was emptied and erased
            rename_i hemp
            have hL₂nil : L₂.orders = [] := by
              simpa using hemp
            have hL₂z : L₂.total_quantity = 0 := by
              rw [hL₂wf.total_eq, hL₂nil]
              rfl
            split at heq
            · -- break: filled, or FOK shortfall
              rw [Prod.mk.injEq, Prod.mk.injEq, Prod.mk.injEq] at heq
              obtain ⟨h1, h2, h3, h4⟩ := heq
              subst h1; subst h2; subst h3; subst h4
              refine ⟨List.sublist_cons_of_sublist _ (List.Sublist.refl _), hwf₁, hrestwf₁,
                ?_, rfl, hf₁0, hf₁r, hsidestab⟩
              rw [List.map_cons, List.sum_cons]
              omega
            · -- continue on the tail
              rcases hW : matchWalk pOk tif tq st₁ (remaining - fillsTotal f₁) rest
                with ⟨f₂, lv₂, stW, rmW⟩
              rw [hW] at heq
              dsimp only at heq
              rw [Prod.mk.injEq, Prod.mk.injEq, Prod.mk.injEq] at heq
              obtain ⟨h1, h2, h3, h4⟩ := heq
              subst h1; subst h2; subst h3; subst h4
              obtain ⟨ihsub, ihwf, ihlv, ihsum, ihrem, ihf0, ihfr, ihstab⟩ :=
                ih st₁ (remaining - fillsTotal f₁) f₂ lv₂ stW rmW hwf₁ hrestwf₁ hnp'
                  (by omega) hW
              refine ⟨ihsub.trans (List.sublist_cons_of_sublist _ (List.Sublist.refl _)),
                ihwf, ihlv, ?_, ?_, ?_, ?_, ?_⟩
              · rw [fillsTotal_append, ihsum, List.map_cons, List.sum_cons]
                omega
              · rw [fillsTotal_append]
                omega
              · rw [fillsTotal_append]
                omega
              · rw [fillsTotal_append]
                omega
              · intro k o2 hk hs
                have h1 := hsidestab k o2 hk hs
                have h2 := ihstab k o2 (by rw [h1]; exact hk) hs
                rw [h2, h1]
          · -- the level survives partially consumed
            rw [Prod.mk.injEq, Prod.mk.injEq, Prod.mk.injEq] at heq
            obtain ⟨h1, h2, h3, h4⟩ := heq
            subst h1; subst h2; subst h3; subst h4
            refine ⟨?_, hwf₁, ?_, ?_, rfl, hf₁0, hf₁r, hsidestab⟩
            · rw [List.map_cons, List.map_cons, hL₂p]
            · intro M hM
              rcases List.mem_cons.1 hM with hM | hM
              · subst hM
                exact hL₂wf
              · exact hrestwf₁ M hM
            · rw [List.map_cons, List.map_cons, List.sum_cons, List.sum_cons]
              omega

/-! ### More level-list lemmas -/

theorem findLevel_mem {ls : List PriceLevel} {p : Int} {L : PriceLevel}
    (h : findLevel ls p = some L) : L ∈ ls :=
  List.mem_of_find?_eq_some h

theorem findLevel_eq_none {ls : List PriceLevel} {p : Int}
    (h : findLevel ls p = none) : ∀ M ∈ ls, M.price ≠ p := by
  intro M hM
  have := List.find?_eq_none.1 h M hM
  simpa using this

theorem updateLevel_mem {ls : List PriceLevel} {p : Int} {L' M : PriceLevel}
    (h : M ∈ updateLevel ls p L') : M = L' ∨ M ∈ ls := by
  induction ls with
  | nil => simp [updateLevel] at h
  | cons N rest ih =>
      by_cases hN : N.price = p
      · rw [updateLevel_cons_pos rest L' hN] at h
        rcases List.mem_cons.1 h with h | h
        · exact Or.inl h
        · exact Or.inr (List.mem_cons_of_mem N h)
      · rw [updateLevel_cons_neg rest L' hN] at h
        rcases List.mem_cons.1 h with h | h
        · exact Or.inr (h ▸ List.mem_cons_self N rest)
        · rcases ih h with h | h
          · exact Or.inl h
          · exact Or.inr (List.mem_cons_of_mem N h)

theorem updateLevel_map_price_eq {ls : List PriceLevel} {p : Int} (L L' : PriceLevel)
    (h : findLevel ls p = some L) (hp : L'.price = L.price) :
    (updateLevel ls p L').map PriceLevel.price = ls.map PriceLevel.price := by
  induction ls with
  | nil => rfl
  | cons N rest ih =>
      by_cases hN : N.price = p
      · rw [updateLevel_cons_pos rest L' hN]
        unfold findLevel at h
        rw [List.find?_cons_of_pos _ (by simp [hN])] at h
        injection h with h
        subst h
        rw [List.map_cons, List.map_cons, hp]
      · rw [updateLevel_cons_neg rest L' hN]
        unfold findLevel at h
        rw [List.find?_cons_of_neg _ (by simp [hN])] at h
        rw [List.map_cons, List.map_cons, ih h]

theorem updateLevel_sum {ls : List PriceLevel} {p : Int} (L L' : PriceLevel)
    (h : findLevel ls p = some L) :
    ((updateLevel ls p L').map PriceLevel.total_quantity).sum
      = (ls.map PriceLevel.total_quantity).sum - L.total_quantity + L'.total_quantity := by
  induction ls with
  | nil => simp [findLevel] at h
  | cons N rest ih =>
      by_cases hN : N.price = p
      · rw [updateLevel_cons_pos rest L' hN]
        unfold findLevel at h
        rw [List.find?_cons_of_pos _ (by simp [hN])] at h
        injection h with h
        subst h
        rw [List.map_cons, List.map_cons, List.sum_cons, List.sum_cons]
        ring
      · rw [updateLevel_cons_neg rest L' hN]
        unfold findLevel at h
        rw [List.find?_cons_of_neg _ (by simp [hN])] at h
        rw [List.map_cons, List.map_cons, List.sum_cons, List.sum_cons, ih h]
        ring

theorem eraseLevel_updateLevel {ls : List PriceLevel} {p : Int} {L L' : PriceLevel}
    (hp : L'.price = p) (h : findLevel ls p = some L) :
    eraseLevel (updateLevel ls p L') p = eraseLevel ls p := by
  induction ls with
  | nil => rfl
  | cons N rest ih =>
      by_cases hN : N.price = p
      · rw [updateLevel_cons_pos rest L' hN]
        unfold eraseLevel
        rw [if_pos hp, if_pos hN]
      · rw [updateLevel_cons_neg rest L' hN]
        unfold findLevel at h
        rw [List.find?_cons_of_neg _ (by simp [hN])] at h
        unfold eraseLevel
        rw [if_neg hN, if_neg hN, ih h]

theorem eraseLevel_sublist (ls : List PriceLevel) (p : Int) :
    (eraseLevel ls p).Sublist ls := by
  induction ls with
  | nil => exact List.Sublist.refl _
  | cons N rest ih =>
      by_cases hN : N.price = p
      · unfold eraseLevel
        rw [if_pos hN]
        exact List.sublist_cons_of_sublist _ (List.Sublist.refl _)
      · unfold eraseLevel
        rw [if_neg hN]
        exact ih.cons₂ N

theorem eraseLevel_sum {ls : List PriceLevel} {p : Int} {L : PriceLevel}
    (h : findLevel ls p = some L) :
    ((eraseLevel ls p).map PriceLevel.total_quantity).sum
      = (ls.map PriceLevel.total_quantity).sum - L.total_quantity := by
  induction ls with
  | nil => simp [findLevel] at h
  | cons N rest ih =>
      by_cases hN : N.price = p
      · unfold eraseLevel
        rw [if_pos hN]
        unfold findLevel at h
        rw [List.find?_cons_of_pos _ (by simp [hN])] at h
        injection h with h
        subst h
        rw [List.map_cons, List.sum_cons]
        ring
      · unfold eraseLevel
        rw [if_neg hN]
        unfold findLevel at h
        rw [List.find?_cons_of_neg _ (by simp [hN])] at h
        rw [List.map_cons, List.map_cons, List.sum_cons, List.sum_cons, ih h]
        ring

theorem insertLevelDesc_perm {ls : List PriceLevel} {L : PriceLevel}
    (h : ∀ M ∈ ls, M.price ≠ L.price) :
    (insertLevelDesc ls L).Perm (L :: ls) := by
  induction ls with
  | nil => exact List.Perm.refl _
  | cons N rest ih =>
      unfold insertLevelDesc
      by_cases h1 : N.price < L.price
      · rw [if_pos h1]
      · rw [if_neg h1, if_neg (h N (List.mem_cons_self N rest))]
        exact ((ih (fun M hM => h M (List.mem_cons_of_mem N hM))).cons N).trans
          (List.Perm.swap L N rest)

theorem insertLevelAsc_perm {ls : List PriceLevel} {L : PriceLevel}
    (h : ∀ M ∈ ls, M.price ≠ L.price) :
    (insertLevelAsc ls L).Perm (L :: ls) := by
  induction ls with
  | nil => exact List.Perm.refl _
  | cons N rest ih =>
      unfold insertLevelAsc
      by_cases h1 : L.price < N.price
      · rw [if_pos h1]
      · rw [if_neg h1, if_neg (h N (List.mem_cons_self N rest))]
        exact ((ih (fun M hM => h M (List.mem_cons_of_mem N hM))).cons N).trans
          (List.Perm.swap L N rest)

/-! ### Store-sum update lemmas -/

theorem sumRemaining_congr_rem {st st' : Store} {l : List Nat}
    (h : ∀ j ∈ l,
      (match lookupOrd st' j with
       | some o => o.remaining_quantity
       | none => 0)
      = (match lookupOrd st j with
         | some o => o.remaining_quantity
         | none => 0)) :
    sumRemaining st' l = sumRemaining st l := by
  unfold sumRemaining
  congr 1
  exact List.map_congr_left (fun j hj => h j hj)

theorem sumRemaining_update {st : Store} {i : Nat} {o o' : Order} {l : List Nat}
    (hmem : i ∈ l) (hnd : l.Nodup) (hlk : lookupOrd st i = some o) :
    sumRemaining (updateOrd st i o') l
      = sumRemaining st l - o.remaining_quantity + o'.remaining_quantity := by
  have hp := List.perm_cons_erase hmem
  rw [sumRemaining_perm _ hp, sumRemaining_perm st hp]
  rw [sumRemaining_cons, sumRemaining_cons]
  have hni : i ∉ l.erase i := hnd.not_mem_erase
  have hstab : ∀ j ∈ l.erase i, lookupOrd (updateOrd st i o') j = lookupOrd st j :=
    fun j hj => lookupOrd_updateOrd_ne st i o' j (fun he => hni (he ▸ hj))
  rw [sumRemaining_congr hstab]
  have hself : lookupOrd (updateOrd st i o') i = some o' := by
    rw [lookupOrd_updateOrd_self, hlk]
    rfl
  rw [hself, hlk]
  dsimp only
  ring

/-- Stamping a stored order REPLACED (an in-place modify) preserves book
well-formedness: remaining quantities, prices, sides and totals are
untouched and REPLACED is a legal level status. -/
theorem set_status_replaced_wf (b : OrderBook) (i : Nat) (o2 : Order)
    (hWF : BookWF b) (hlk : lookupOrd b.orders i = some o2) :
    BookWF { b with orders := updateOrd b.orders i (o2.set_status OrderStatus.REPLACED) } := by
  obtain ⟨hid, h0, h1⟩ := hWF.store.lookup_props hlk
  have hlk' : lookupOrd (updateOrd b.orders i (o2.set_status OrderStatus.REPLACED)) i
      = some (o2.set_status OrderStatus.REPLACED) := by
    rw [lookupOrd_updateOrd_self, hlk]
    rfl
  have hside : ∀ (s : Side) (L : PriceLevel), LevelWF b.orders s L →
      LevelWF (updateOrd b.orders i (o2.set_status OrderStatus.REPLACED)) s L := by
    intro s L hL
    refine ⟨?_, hL.nodup, ?_⟩
    · rw [hL.total_eq]
      refine (sumRemaining_congr_rem ?_).symm
      intro j hj
      by_cases hji : j = i
      · subst hji
        rw [hlk', hlk]
        rfl
      · rw [lookupOrd_updateOrd_ne _ _ _ _ hji]
    · intro j hj
      obtain ⟨o, e1, e2, e3, e4⟩ := hL.mems j hj
      by_cases hji : j = i
      · subst hji
        rw [hlk] at e1
        injection e1 with e1
        refine ⟨o2.set_status OrderStatus.REPLACED, hlk', ?_, ?_, ?_⟩
        · show o2.price = L.price
          rw [e1]
          exact e2
        · show o2.side = s
          rw [e1]
          exact e3
        · exact Or.inr (Or.inr (Or.inl rfl))
      · exact ⟨o, (lookupOrd_updateOrd_ne _ _ _ _ hji).trans e1, e2, e3, e4⟩
  refine ⟨?_, ?_, ?_⟩
  · exact hWF.store.updateOrd hid h0 h1
  · obtain ⟨n1, n2, n3⟩ := hWF.bidWF
    exact ⟨n1, fun L hL => hside Side.BUY L (n2 L hL), n3⟩
  · obtain ⟨n1, n2, n3⟩ := hWF.askWF
    exact ⟨n1, fun L hL => hside Side.SELL L (n2 L hL), n3⟩

/-- Resting a fresh, unfilled limit order preserves book
well-formedness. -/
theorem add_limit_order_to_book_wf (b : OrderBook) (o : Order) (hWF : BookWF b)
    (hfresh : lookupOrd b.orders o.id = none)
    (h0 : 0 ≤ o.executed_quantity) (h1 : o.executed_quantity ≤ o.quantity)
    (hstat : statusOKForLevel o ∨ o.is_filled = true) :
    BookWF (b.add_limit_order_to_book o) := by
  unfold OrderBook.add_limit_order_to_book
  split
  · exact hWF
  · rename_i hguard
    have hnf : ¬ o.is_filled = true := fun hc => hguard (Or.inr hc)
    have hok : statusOKForLevel o := hstat.resolve_right hnf
    have hst' : StoreWF (insertOrd b.orders o) := hWF.store.insertOrd hfresh h0 h1
    have hfreshmem : ∀ (L : PriceLevel) (s : Side), LevelWF b.orders s L →
        o.id ∉ L.orders := by
      intro L s hL hmem
      obtain ⟨ox, e1, _, _, _⟩ := hL.mems o.id hmem
      rw [hfresh] at e1
      exact Option.noConfusion e1
    have hstab : ∀ (L : PriceLevel) (s : Side), LevelWF b.orders s L →
        ∀ j ∈ L.orders, lookupOrd (insertOrd b.orders o) j = lookupOrd b.orders j := by
      intro L s hL j hj
      rw [lookupOrd_insertOrd]
      rw [if_neg (fun he => hfreshmem L s hL (by rw [he]; exact hj))]
    have hcongr : ∀ (L : PriceLevel) (s : Side), LevelWF b.orders s L →
        LevelWF (insertOrd b.orders o) s L :=
      fun L s hL => LevelWF_congr hL (hstab L s hL)
    have hself : lookupOrd (insertOrd b.orders o) o.id = some o := by
      rw [lookupOrd_insertOrd, if_pos rfl]
    cases hside : o.side <;> dsimp only
    case BUY =>
      cases hfl : findLevel b.bids o.price
      case some L =>
          dsimp only
          have hLmem : L ∈ b.bids := findLevel_mem hfl
          have hLwf : LevelWF b.orders Side.BUY L := hWF.bidWF.levelsWF L hLmem
          have hLp : L.price = o.price := findLevel_price _ _ _ hfl
          have hadd : L.add_order o =
              { L with orders := L.orders ++ [o.id],
                       total_quantity := L.total_quantity + o.remaining_quantity } := by
            unfold PriceLevel.add_order
            rw [if_neg (fun hc => hc hLp.symm)]
          refine ⟨hst', ⟨?_, ?_, ?_⟩, ?_⟩
          · show ((updateLevel b.bids o.price (L.add_order o)).map PriceLevel.price).Nodup
            rw [updateLevel_map_price_eq L (L.add_order o) hfl (by rw [hadd])]
            exact hWF.bidWF.nodupPrices
          · intro M hM
            rcases updateLevel_mem hM with hM | hM
            · subst hM
              rw [hadd]
              refine ⟨?_, ?_, ?_⟩
              · show L.total_quantity + o.remaining_quantity
                  = sumRemaining (insertOrd b.orders o) (L.orders ++ [o.id])
                rw [sumRemaining_append, sumRemaining_congr (hstab L Side.BUY hLwf)]
                rw [sumRemaining_cons, hself, sumRemaining_nil, ← hLwf.total_eq]
                dsimp only
                ring
              · show (L.orders ++ [o.id]).Nodup
                refine hLwf.nodup.append (List.nodup_singleton o.id) ?_
                intro a ha hb
                have hab : a = o.id := by simpa using hb
                exact hfreshmem L Side.BUY hLwf (hab ▸ ha)
              · intro j hj
                rcases List.mem_append.1 hj with hj | hj
                · obtain ⟨ox, e1, e2, e3, e4⟩ := hLwf.mems j hj
                  exact ⟨ox, (hstab L Side.BUY hLwf j hj).trans e1, e2, e3, e4⟩
                · have hj : j = o.id := by simpa using hj
                  subst hj
                  exact ⟨o, hself, hLp.symm, hside, hok⟩
            · exact hcongr M Side.BUY (hWF.bidWF.levelsWF M hM)
          · show b.total_bid_quantity + o.remaining_quantity
              = ((updateLevel b.bids o.price (L.add_order o)).map PriceLevel.total_quantity).sum
            rw [updateLevel_sum L (L.add_order o) hfl, hadd, ← hWF.bidWF.total_eq]
            dsimp only
            ring
          · obtain ⟨n1, n2, n3⟩ := hWF.askWF
            exact ⟨n1, fun M hM => hcongr M Side.SELL (n2 M hM), n3⟩
      case none =>
          dsimp only
          have hnone := findLevel_eq_none hfl
          have hL0 : (PriceLevel.mk o.price [] 0).add_order o =
              { price := o.price, orders := [o.id],
                total_quantity := o.remaining_quantity } := by
            unfold PriceLevel.add_order
            rw [if_neg (fun hc => hc rfl)]
            show ({ price := o.price, orders := [] ++ [o.id], total_quantity := 0 + o.remaining_quantity } : PriceLevel) = _
            rw [List.nil_append, zero_add]
          have hperm := @insertLevelDesc_perm
            b.bids ((PriceLevel.mk o.price [] 0).add_order o)
            (by
              intro M hM
              rw [hL0]
              exact hnone M hM)
          refine ⟨hst', ⟨?_, ?_, ?_⟩, ?_⟩
          · rw [(hperm.map PriceLevel.price).nodup_iff]
            rw [List.map_cons, hL0]
            refine List.nodup_cons.2 ⟨?_, hWF.bidWF.nodupPrices⟩
            intro hc
            obtain ⟨M, hM, hMe⟩ := List.mem_map.1 hc
            exact hnone M hM hMe
          · intro M hM
            rcases List.mem_cons.1 (hperm.mem_iff.1 hM) with hM | hM
            · subst hM
              rw [hL0]
              refine ⟨?_, ?_, ?_⟩
              · show o.remaining_quantity = sumRemaining (insertOrd b.orders o) [o.id]
                rw [sumRemaining_cons, hself, sumRemaining_nil]
                dsimp only
                ring
              · exact List.nodup_singleton o.id
              · intro j hj
                have hj : j = o.id := by simpa using hj
                subst hj
                exact ⟨o, hself, rfl, hside, hok⟩
            · exact hcongr M Side.BUY (hWF.bidWF.levelsWF M hM)
          · show b.total_bid_quantity + o.remaining_quantity = _
            rw [(hperm.map PriceLevel.total_quantity).sum_eq]
            rw [List.map_cons, List.sum_cons, hL0, ← hWF.bidWF.total_eq]
            dsimp only
            ring
          · obtain ⟨n1, n2, n3⟩ := hWF.askWF
            exact ⟨n1, fun M hM => hcongr M Side.SELL (n2 M hM), n3⟩
    case SELL =>
      cases hfl : findLevel b.asks o.price
      case some L =>
          dsimp only
          have hLmem : L ∈ b.asks := findLevel_mem hfl
          have hLwf : LevelWF b.orders Side.SELL L := hWF.askWF.levelsWF L hLmem
          have hLp : L.price = o.price := findLevel_price _ _ _ hfl
          have hadd : L.add_order o =
              { L with orders := L.orders ++ [o.id],
                       total_quantity := L.total_quantity + o.remaining_quantity } := by
            unfold PriceLevel.add_order
            rw [if_neg (fun hc => hc hLp.symm)]
          refine ⟨hst', ?_, ⟨?_, ?_, ?_⟩⟩
          · obtain ⟨n1, n2, n3⟩ := hWF.bidWF
            exact ⟨n1, fun M hM => hcongr M Side.BUY (n2 M hM), n3⟩
          · show ((updateLevel b.asks o.price (L.add_order o)).map PriceLevel.price).Nodup
            rw [updateLevel_map_price_eq L (L.add_order o) hfl (by rw [hadd])]
            exact hWF.askWF.nodupPrices
          · intro M hM
            rcases updateLevel_mem hM with hM | hM
            · subst hM
              rw [hadd]
              refine ⟨?_, ?_, ?_⟩
              · show L.total_quantity + o.remaining_quantity
                  = sumRemaining (insertOrd b.orders o) (L.orders ++ [o.id])
                rw [sumRemaining_append, sumRemaining_congr (hstab L Side.SELL hLwf)]
                rw [sumRemaining_cons, hself, sumRemaining_nil, ← hLwf.total_eq]
                dsimp only
                ring
              · show (L.orders ++ [o.id]).Nodup
                refine hLwf.nodup.append (List.nodup_singleton o.id) ?_
                intro a ha hb
                have hab : a = o.id := by simpa using hb
                exact hfreshmem L Side.SELL hLwf (hab ▸ ha)
              · intro j hj
                rcases List.mem_append.1 hj with hj | hj
                · obtain ⟨ox, e1, e2, e3, e4⟩ := hLwf.mems j hj
                  exact ⟨ox, (hstab L Side.SELL hLwf j hj).trans e1, e2, e3, e4⟩
                · have hj : j = o.id := by simpa using hj
                  subst hj
                  exact ⟨o, hself, hLp.symm, hside, hok⟩
            · exact hcongr M Side.SELL (hWF.askWF.levelsWF M hM)
          · show b.total_ask_quantity + o.remaining_quantity
              = ((updateLevel b.asks o.price (L.add_order o)).map PriceLevel.total_quantity).sum
            rw [updateLevel_sum L (L.add_order o) hfl, hadd, ← hWF.askWF.total_eq]
            dsimp only
            ring
      case none =>
          dsimp only
          have hnone := findLevel_eq_none hfl
          have hL0 : (PriceLevel.mk o.price [] 0).add_order o =
              { price := o.price, orders := [o.id],
                total_quantity := o.remaining_quantity } := by
            unfold PriceLevel.add_order
            rw [if_neg (fun hc => hc rfl)]
            show ({ price := o.price, orders := [] ++ [o.id], total_quantity := 0 + o.remaining_quantity } : PriceLevel) = _
            rw [List.nil_append, zero_add]
          have hperm := @insertLevelAsc_perm
            b.asks ((PriceLevel.mk o.price [] 0).add_order o)
            (by
              intro M hM
              rw [hL0]
              exact hnone M hM)
          refine ⟨hst', ?_, ⟨?_, ?_, ?_⟩⟩
          · obtain ⟨n1, n2, n3⟩ := hWF.bidWF
            exact ⟨n1, fun M hM => hcongr M Side.BUY (n2 M hM), n3⟩
          · rw [(hperm.map PriceLevel.price).nodup_iff]
            rw [List.map_cons, hL0]
            refine List.nodup_cons.2 ⟨?_, hWF.askWF.nodupPrices⟩
            intro hc
            obtain ⟨M, hM, hMe⟩ := List.mem_map.1 hc
            exact hnone M hM hMe
          · intro M hM
            rcases List.mem_cons.1 (hperm.mem_iff.1 hM) with hM | hM
            · subst hM
              rw [hL0]
              refine ⟨?_, ?_, ?_⟩
              · show o.remaining_quantity = sumRemaining (insertOrd b.orders o) [o.id]
                rw [sumRemaining_cons, hself, sumRemaining_nil]
                dsimp only
                ring
              · exact List.nodup_singleton o.id
              · intro j hj
                have hj : j = o.id := by simpa using hj
                subst hj
                exact ⟨o, hself, rfl, hside, hok⟩
            · exact hcongr M Side.SELL (hWF.askWF.levelsWF M hM)
          · show b.total_ask_quantity + o.remaining_quantity = _
            rw [(hperm.map PriceLevel.total_quantity).sum_eq]
            rw [List.map_cons, List.sum_cons, hL0, ← hWF.askWF.total_eq]
            dsimp only
            ring

/-- Transfer of one side's levels across store changes that do not touch
orders of that side's members. -/
theorem levels_stable_of_other_side {st st' : Store} {s sOther : Side}
    {levels : List PriceLevel}
    (hs : sOther ≠ s)
    (hlv : ∀ L ∈ levels, LevelWF st sOther L)
    (hstab : ∀ k o2, lookupOrd st k = some o2 → o2.side ≠ s →
      lookupOrd st' k = lookupOrd st k) :
    ∀ L ∈ levels, LevelWF st' sOther L := by
  intro L hL
  refine LevelWF_congr (hlv L hL) ?_
  intro j hj
  obtain ⟨oj, e1, _, e3, _⟩ := (hlv L hL).mems j hj
  exact hstab j oj e1 (by rw [e3]; exact hs)

/-- `match_limit_order` preserves book well-formedness; the returned
taker object keeps its identity fields, gains an executed quantity within
`[0, quantity]`, and its status is the incoming one or PARTIALLY_FILLED,
FILLED or CANCELLED. -/
theorem match_limit_order_wf (b : OrderBook) (o : Order) (hWF : BookWF b)
    (hexec : o.executed_quantity = 0) (hq : 0 ≤ o.quantity) :
    BookWF (b.match_limit_order o).2.1 ∧
    (b.match_limit_order o).2.2.id = o.id ∧
    (b.match_limit_order o).2.2.side = o.side ∧
    (b.match_limit_order o).2.2.type = o.type ∧
    (b.match_limit_order o).2.2.price = o.price ∧
    (b.match_limit_order o).2.2.quantity = o.quantity ∧
    0 ≤ (b.match_limit_order o).2.2.executed_quantity ∧
    (b.match_limit_order o).2.2.executed_quantity ≤ o.quantity ∧
    ((b.match_limit_order o).2.2.status = o.status ∨
     (b.match_limit_order o).2.2.status = OrderStatus.PARTIALLY_FILLED ∨
     (b.match_limit_order o).2.2.status = OrderStatus.FILLED ∨
     (b.match_limit_order o).2.2.status = OrderStatus.CANCELLED) := by
  have hr0 : 0 ≤ o.remaining_quantity := by
    unfold Order.remaining_quantity
    omega
  unfold OrderBook.match_limit_order
  split
  · refine ⟨hWF, rfl, rfl, rfl, rfl, rfl, ?_, ?_, Or.inl rfl⟩
    · show 0 ≤ o.executed_quantity
      omega
    · show o.executed_quantity ≤ o.quantity
      omega
  · have hre : o.remaining_quantity = o.quantity - o.executed_quantity := rfl
    cases hside : o.side <;> dsimp only
    case BUY =>
      rcases hW : matchWalk (fun p => decide ¬ p > o.price) o.time_in_force o.quantity
          b.orders o.remaining_quantity b.asks with ⟨f, lv, stW, rm⟩
      dsimp only
      obtain ⟨hsub, hwfW, hlvW, hsum, hrm, hf0, hfr, hstabW⟩ :=
        matchWalk_spec _ o.time_in_force o.quantity Side.SELL b.asks b.orders
          o.remaining_quantity f lv stW rm hWF.store hWF.askWF.levelsWF
          hWF.askWF.nodupPrices hr0 hW
      have hbook : BookWF
          { b with asks := lv, orders := stW,
                   total_ask_quantity :=
                     b.total_ask_quantity - (o.remaining_quantity - rm) } := by
        refine ⟨hwfW, ?_, ?_⟩
        · refine ⟨hWF.bidWF.nodupPrices, ?_, hWF.bidWF.total_eq⟩
          exact levels_stable_of_other_side (by decide) hWF.bidWF.levelsWF hstabW
        · refine ⟨hWF.askWF.nodupPrices.sublist hsub, hlvW, ?_⟩
          have ht := hWF.askWF.total_eq
          show b.total_ask_quantity - (o.remaining_quantity - rm)
            = (lv.map PriceLevel.total_quantity).sum
          omega
      have hq0le : o.quantity - rm ≤ o.remaining_quantity := by
        unfold Order.remaining_quantity
        omega
      have hex' : (o.execute (o.quantity - rm)).executed_quantity
          = o.executed_quantity + (o.quantity - rm) :=
        Order.execute_executed_of_le hq0le
      have hst' := Order.execute_status_of_le hq0le
      split
      · refine ⟨hbook, rfl, hside, rfl, rfl, rfl, ?_, ?_, Or.inr (Or.inr (Or.inr rfl))⟩
        · show 0 ≤ (o.execute (o.quantity - rm)).executed_quantity
          rw [hex']
          omega
        · show (o.execute (o.quantity - rm)).executed_quantity ≤ o.quantity
          rw [hex']
          omega
      · refine ⟨hbook, rfl, hside, rfl, rfl, rfl, ?_, ?_, ?_⟩
        · show 0 ≤ (o.execute (o.quantity - rm)).executed_quantity
          rw [hex']
          omega
        · show (o.execute (o.quantity - rm)).executed_quantity ≤ o.quantity
          rw [hex']
          omega
        · show (o.execute (o.quantity - rm)).status = o.status ∨ _ ∨ _ ∨ _
          rw [hst']
          split_ifs
          · exact Or.inr (Or.inr (Or.inl rfl))
          · exact Or.inr (Or.inl rfl)
          · exact Or.inl rfl
    case SELL =>
      rcases hW : matchWalk (fun p => decide ¬ p < o.price) o.time_in_force o.quantity
          b.orders o.remaining_quantity b.bids with ⟨f, lv, stW, rm⟩
      dsimp only
      obtain ⟨hsub, hwfW, hlvW, hsum, hrm, hf0, hfr, hstabW⟩ :=
        matchWalk_spec _ o.time_in_force o.quantity Side.BUY b.bids b.orders
          o.remaining_quantity f lv stW rm hWF.store hWF.bidWF.levelsWF
          hWF.bidWF.nodupPrices hr0 hW
      have hbook : BookWF
          { b with bids := lv, orders := stW,
                   total_bid_quantity :=
                     b.total_bid_quantity - (o.remaining_quantity - rm) } := by
        refine ⟨hwfW, ?_, ?_⟩
        · refine ⟨hWF.bidWF.nodupPrices.sublist hsub, hlvW, ?_⟩
          have ht := hWF.bidWF.total_eq
          show b.total_bid_quantity - (o.remaining_quantity - rm)
            = (lv.map PriceLevel.total_quantity).sum
          omega
        · refine ⟨hWF.askWF.nodupPrices, ?_, hWF.askWF.total_eq⟩
          exact levels_stable_of_other_side (by decide) hWF.askWF.levelsWF hstabW
      have hq0le : o.quantity - rm ≤ o.remaining_quantity := by
        unfold Order.remaining_quantity
        omega
      have hex' : (o.execute (o.quantity - rm)).executed_quantity
          = o.executed_quantity + (o.quantity - rm) :=
        Order.execute_executed_of_le hq0le
      have hst' := Order.execute_status_of_le hq0le
      split
      · refine ⟨hbook, rfl, hside, rfl, rfl, rfl, ?_, ?_, Or.inr (Or.inr (Or.inr rfl))⟩
        · show 0 ≤ (o.execute (o.quantity - rm)).executed_quantity
          rw [hex']
          omega
        · show (o.execute (o.quantity - rm)).executed_quantity ≤ o.quantity
          rw [hex']
          omega
      · refine ⟨hbook, rfl, hside, rfl, rfl, rfl, ?_, ?_, ?_⟩
        · show 0 ≤ (o.execute (o.quantity - rm)).executed_quantity
          rw [hex']
          omega
        · show (o.execute (o.quantity - rm)).executed_quantity ≤ o.quantity
          rw [hex']
          omega
        · show (o.execute (o.quantity - rm)).status = o.status ∨ _ ∨ _ ∨ _
          rw [hst']
          split_ifs
          · exact Or.inr (Or.inr (Or.inl rfl))
          · exact Or.inr (Or.inl rfl)
          · exact Or.inl rfl

/-- `match_market_order` preserves book well-formedness. -/
theorem match_market_order_wf (b : OrderBook) (o : Order) (hWF : BookWF b)
    (hexec : o.executed_quantity = 0) (hq : 0 ≤ o.quantity) :
    BookWF (b.match_market_order o).2.1 := by
  have hr0 : 0 ≤ o.remaining_quantity := by
    unfold Order.remaining_quantity
    omega
  unfold OrderBook.match_market_order
  split
  · exact hWF
  · cases hside : o.side <;> dsimp only
    case BUY =>
      rcases hW : matchWalk (fun _ => true) o.time_in_force o.quantity
          b.orders o.remaining_quantity b.asks with ⟨f, lv, stW, rm⟩
      dsimp only
      obtain ⟨hsub, hwfW, hlvW, hsum, hrm, hf0, hfr, hstabW⟩ :=
        matchWalk_spec _ o.time_in_force o.quantity Side.SELL b.asks b.orders
          o.remaining_quantity f lv stW rm hWF.store hWF.askWF.levelsWF
          hWF.askWF.nodupPrices hr0 hW
      have hbook : BookWF
          { b with asks := lv, orders := stW,
                   total_ask_quantity :=
                     b.total_ask_quantity - (o.remaining_quantity - rm) } := by
        refine ⟨hwfW, ?_, ?_⟩
        · refine ⟨hWF.bidWF.nodupPrices, ?_, hWF.bidWF.total_eq⟩
          exact levels_stable_of_other_side (by decide) hWF.bidWF.levelsWF hstabW
        · refine ⟨hWF.askWF.nodupPrices.sublist hsub, hlvW, ?_⟩
          have ht := hWF.askWF.total_eq
          show b.total_ask_quantity - (o.remaining_quantity - rm)
            = (lv.map PriceLevel.total_quantity).sum
          omega
      split
      · exact hbook
      · exact hbook
    case SELL =>
      rcases hW : matchWalk (fun _ => true) o.time_in_force o.quantity
          b.orders o.remaining_quantity b.bids with ⟨f, lv, stW, rm⟩
      dsimp only
      obtain ⟨hsub, hwfW, hlvW, hsum, hrm, hf0, hfr, hstabW⟩ :=
        matchWalk_spec _ o.time_in_force o.quantity Side.BUY b.bids b.orders
          o.remaining_quantity f lv stW rm hWF.store hWF.bidWF.levelsWF
          hWF.bidWF.nodupPrices hr0 hW
      have hbook : BookWF
          { b with bids := lv, orders := stW,
                   total_bid_quantity :=
                     b.total_bid_quantity - (o.remaining_quantity - rm) } := by
        refine ⟨hwfW, ?_, ?_⟩
        · refine ⟨hWF.bidWF.nodupPrices.sublist hsub, hlvW, ?_⟩
          have ht := hWF.bidWF.total_eq
          show b.total_bid_quantity - (o.remaining_quantity - rm)
            = (lv.map PriceLevel.total_quantity).sum
          omega
        · refine ⟨hWF.askWF.nodupPrices, ?_, hWF.askWF.total_eq⟩
          exact levels_stable_of_other_side (by decide) hWF.askWF.levelsWF hstabW
      split
      · exact hbook
      · exact hbook

/-- A refined `updateLevel_mem` under distinct prices: a member of the
updated list is the replacement or an untouched level away from `p`. -/
theorem updateLevel_mem_nodup {ls : List PriceLevel} {p : Int} {L L' M : PriceLevel}
    (hnd : (ls.map PriceLevel.price).Nodup) (h : findLevel ls p = some L)
    (hM : M ∈ updateLevel ls p L') : M = L' ∨ (M ∈ ls ∧ M.price ≠ p) := by
  induction ls with
  | nil => simp [updateLevel] at hM
  | cons N rest ih =>
      by_cases hN : N.price = p
      · rw [updateLevel_cons_pos rest L' hN] at hM
        rcases List.mem_cons.1 hM with hM | hM
        · exact Or.inl hM
        · right
          refine ⟨List.mem_cons_of_mem N hM, ?_⟩
          intro he
          have : M.price ∈ rest.map PriceLevel.price := List.mem_map_of_mem _ hM
          rw [he, ← hN] at this
          exact (List.nodup_cons.1 hnd).1 this
      · rw [updateLevel_cons_neg rest L' hN] at hM
        unfold findLevel at h
        rw [List.find?_cons_of_neg _ (by simp [hN])] at h
        rcases List.mem_cons.1 hM with hM | hM
        · subst hM
          exact Or.inr ⟨List.mem_cons_self M rest, hN⟩
        · rcases ih (List.nodup_cons.1 hnd).2 h hM with h2 | ⟨h2, h3⟩
          · exact Or.inl h2
          · exact Or.inr ⟨List.mem_cons_of_mem N h2, h3⟩

/-- `add_order` preserves book well-formedness for a fresh submission. -/
theorem add_order_wf (b : OrderBook) (o : Order) (hWF : BookWF b)
    (hfresh : lookupOrd b.orders o.id = none)
    (hexec : o.executed_quantity = 0) (hq : 0 ≤ o.quantity) :
    BookWF (b.add_order o).2.1 := by
  unfold OrderBook.add_order
  split
  · exact hWF
  · dsimp only
    cases ht : o.type
    case LIMIT =>
      rw [show (o.set_status OrderStatus.ACCEPTED).type = OrderType.LIMIT from ht]
      dsimp only
      obtain ⟨hbook, hrid, hrside, hrtype, hrprice, hrq, hre0, hre1, hrst⟩ :=
        match_limit_order_wf b (o.set_status OrderStatus.ACCEPTED) hWF hexec hq
      split
      · rename_i hrest
        refine add_limit_order_to_book_wf _ _ hbook ?_ hre0 ?_ ?_
        · rw [hrid]
          exact match_limit_order_lookup_none b (o.set_status OrderStatus.ACCEPTED)
            o.id hfresh
        · rw [hrq]
          exact hre1
        · rcases hrst with h | h | h | h
          · exact Or.inl (Or.inl (h.trans rfl))
          · exact Or.inl (Or.inr (Or.inl h))
          · exact Or.inr (by simp [Order.is_filled, h])
          · exact Or.inl (Or.inr (Or.inr (Or.inr h)))
      · exact hbook
    case MARKET =>
      rw [show (o.set_status OrderStatus.ACCEPTED).type = OrderType.MARKET from ht]
      exact match_market_order_wf b (o.set_status OrderStatus.ACCEPTED) hWF hexec hq

theorem restingIn_true {b : OrderBook} {i : Nat} (h : restingIn b i = true) :
    ∃ o L, lookupOrd b.orders i = some o ∧
      findLevel (b.sideLevels o.side) o.price = some L ∧ i ∈ L.orders := by
  unfold restingIn at h
  cases hlk : lookupOrd b.orders i with
  | none =>
      rw [hlk] at h
      exact absurd h (by simp)
  | some o =>
      rw [hlk] at h
      dsimp only at h
      cases hfl : findLevel (b.sideLevels o.side) o.price with
      | none =>
          rw [hfl] at h
          exact absurd h (by simp)
      | some L =>
          rw [hfl] at h
          dsimp only at h
          exact ⟨o, L, rfl, hfl, by simpa using h⟩


/-- Under distinct prices, after erasing the (unique) level found at `p`
no remaining level carries price `p`. -/
theorem eraseLevel_no_price {ls : List PriceLevel} {p : Int} {L M : PriceLevel}
    (hnd : (ls.map PriceLevel.price).Nodup) (hfl : findLevel ls p = some L)
    (hM : M ∈ eraseLevel ls p) : M.price ≠ p := by
  induction ls with
  | nil => simp [findLevel] at hfl
  | cons N rest ih =>
      by_cases hN : N.price = p
      · unfold eraseLevel at hM
        rw [if_pos hN] at hM
        intro he
        have hmm : M.price ∈ rest.map PriceLevel.price := List.mem_map_of_mem _ hM
        rw [he, ← hN] at hmm
        exact (List.nodup_cons.1 hnd).1 hmm
      · unfold eraseLevel at hM
        rw [if_neg hN] at hM
        rcases List.mem_cons.1 hM with hM | hM
        · rw [hM]
          exact hN
        · unfold findLevel at hfl
          rw [List.find?_cons_of_neg _ (by simp [hN])] at hfl
          exact ih (List.nodup_cons.1 hnd).2 hfl hM

/-- `cancel_order` preserves book well-formedness. -/
theorem cancel_order_wf (b : OrderBook) (i : Nat) (hWF : BookWF b) :
    BookWF (b.cancel_order i).2.1 := by
  by_cases hres : restingIn b i = true
  · obtain ⟨o, L, hlk, hfl, hmem⟩ := restingIn_true hres
    rw [(cancel_order_cases b i).2 o L hlk hfl hmem]
    show BookWF (cancelExpected b o L i)
    have hstE : StoreWF (eraseOrd b.orders i) := hWF.store.eraseOrd i
    have hstabE : ∀ (l : List Nat), i ∉ l →
        ∀ j ∈ l, lookupOrd (eraseOrd b.orders i) j = lookupOrd b.orders j := by
      intro l hno j hj
      rw [lookupOrd_eraseOrd]
      rw [if_neg (show ¬ j = i from fun he => hno (he ▸ hj))]
    have hremL : (match lookupOrd b.orders i with
        | some ox => ox.remaining_quantity
        | none => 0) = o.remaining_quantity := by
      rw [hlk]
    unfold cancelExpected
    cases hside : o.side <;>
      rw [hside] at hfl <;> dsimp only [OrderBook.sideLevels] at hfl <;> dsimp only
    · -- BUY side
      have hLmem : L ∈ b.bids := findLevel_mem hfl
      have hLwf : LevelWF b.orders Side.BUY L := hWF.bidWF.levelsWF L hLmem
      have hLp : L.price = o.price := findLevel_price _ _ _ hfl
      have hierase : i ∉ L.orders.erase i := hLwf.nodup.not_mem_erase
      have hinotin : ∀ M ∈ b.bids, M.price ≠ o.price → i ∉ M.orders := by
        intro M hM hMp hcon
        obtain ⟨o₃, f1, f2, _, _⟩ := (hWF.bidWF.levelsWF M hM).mems i hcon
        have f1' : o = o₃ := Option.some.inj (hlk.symm.trans f1)
        exact hMp (f2.symm.trans (congrArg Order.price f1'.symm))
      have haskwf : ∀ M ∈ b.asks, LevelWF (eraseOrd b.orders i) Side.SELL M := by
        intro M hM
        refine LevelWF_congr (hWF.askWF.levelsWF M hM) (hstabE M.orders ?_)
        intro hcon
        obtain ⟨o₃, f1, _, f3, _⟩ := (hWF.askWF.levelsWF M hM).mems i hcon
        have f1' : o = o₃ := Option.some.inj (hlk.symm.trans f1)
        rw [← f1', hside] at f3
        exact Side.noConfusion f3
      have hL'wf : LevelWF (eraseOrd b.orders i) Side.BUY
          { L with orders := L.orders.erase i,
                   total_quantity := L.total_quantity - o.remaining_quantity } := by
        refine ⟨?_, hLwf.nodup.erase i, ?_⟩
        · show L.total_quantity - o.remaining_quantity
            = sumRemaining (eraseOrd b.orders i) (L.orders.erase i)
          rw [sumRemaining_congr (hstabE (L.orders.erase i) hierase)]
          rw [sumRemaining_erase b.orders hmem, hremL, hLwf.total_eq]
        · intro j hj
          have hji : j ≠ i := fun he => hierase (he ▸ hj)
          obtain ⟨ox, f1, f2, f3, f4⟩ := hLwf.mems j (List.mem_of_mem_erase hj)
          refine ⟨ox, ?_, f2, f3, f4⟩
          rw [lookupOrd_eraseOrd, if_neg hji]
          exact f1
      have hotherwf : ∀ M ∈ b.bids, M.price ≠ o.price →
          LevelWF (eraseOrd b.orders i) Side.BUY M := fun M hM hMp =>
        LevelWF_congr (hWF.bidWF.levelsWF M hM) (hstabE M.orders (hinotin M hM hMp))
      have hL'p : ({ L with orders := L.orders.erase i, total_quantity := L.total_quantity - o.remaining_quantity } : PriceLevel).price = o.price := hLp
      split
      · -- the level became empty and is dropped
        rename_i hemp
        have hL'nil : L.orders.erase i = [] := by simpa using hemp
        have hLtot : L.total_quantity = o.remaining_quantity := by
          have ht := hL'wf.total_eq
          dsimp only at ht
          rw [hL'nil, sumRemaining_nil] at ht
          omega
        rw [eraseLevel_updateLevel hL'p hfl]
        refine ⟨hstE, ⟨?_, ?_, ?_⟩, ⟨hWF.askWF.nodupPrices, haskwf, hWF.askWF.total_eq⟩⟩
        · exact hWF.bidWF.nodupPrices.sublist ((eraseLevel_sublist b.bids o.price).map _)
        · intro M hM
          have hMb : M ∈ b.bids := (eraseLevel_sublist b.bids o.price).subset hM
          exact hotherwf M hMb (eraseLevel_no_price hWF.bidWF.nodupPrices hfl hM)
        · show b.total_bid_quantity - o.remaining_quantity
            = ((eraseLevel b.bids o.price).map PriceLevel.total_quantity).sum
          rw [eraseLevel_sum hfl, ← hWF.bidWF.total_eq, hLtot]
      · -- the level survives
        refine ⟨hstE, ⟨?_, ?_, ?_⟩, ⟨hWF.askWF.nodupPrices, haskwf, hWF.askWF.total_eq⟩⟩
        · show ((updateLevel b.bids o.price { L with orders := L.orders.erase i, total_quantity := L.total_quantity - o.remaining_quantity }).map PriceLevel.price).Nodup
          rw [updateLevel_map_price_eq L _ hfl (hL'p.trans hLp.symm)]
          exact hWF.bidWF.nodupPrices
        · intro M hM
          rcases updateLevel_mem_nodup hWF.bidWF.nodupPrices hfl hM with hM | ⟨hM, hMp⟩
          · subst hM
            exact hL'wf
          · exact hotherwf M hM hMp
        · show b.total_bid_quantity - o.remaining_quantity
            = ((updateLevel b.bids o.price { L with orders := L.orders.erase i, total_quantity := L.total_quantity - o.remaining_quantity }).map PriceLevel.total_quantity).sum
          rw [updateLevel_sum L _ hfl, ← hWF.bidWF.total_eq]
          dsimp only
          ring
    · -- SELL side
      have hLmem : L ∈ b.asks := findLevel_mem hfl
      have hLwf : LevelWF b.orders Side.SELL L := hWF.askWF.levelsWF L hLmem
      have hLp : L.price = o.price := findLevel_price _ _ _ hfl
      have hierase : i ∉ L.orders.erase i := hLwf.nodup.not_mem_erase
      have hinotin : ∀ M ∈ b.asks, M.price ≠ o.price → i ∉ M.orders := by
        intro M hM hMp hcon
        obtain ⟨o₃, f1, f2, _, _⟩ := (hWF.askWF.levelsWF M hM).mems i hcon
        have f1' : o = o₃ := Option.some.inj (hlk.symm.trans f1)
        exact hMp (f2.symm.trans (congrArg Order.price f1'.symm))
      have hbidwf : ∀ M ∈ b.bids, LevelWF (eraseOrd b.orders i) Side.BUY M := by
        intro M hM
        refine LevelWF_congr (hWF.bidWF.levelsWF M hM) (hstabE M.orders ?_)
        intro hcon
        obtain ⟨o₃, f1, _, f3, _⟩ := (hWF.bidWF.levelsWF M hM).mems i hcon
        have f1' : o = o₃ := Option.some.inj (hlk.symm.trans f1)
        rw [← f1', hside] at f3
        exact Side.noConfusion f3
      have hL'wf : LevelWF (eraseOrd b.orders i) Side.SELL
          { L with orders := L.orders.erase i,
                   total_quantity := L.total_quantity - o.remaining_quantity } := by
        refine ⟨?_, hLwf.nodup.erase i, ?_⟩
        · show L.total_quantity - o.remaining_quantity
            = sumRemaining (eraseOrd b.orders i) (L.orders.erase i)
          rw [sumRemaining_congr (hstabE (L.orders.erase i) hierase)]
          rw [sumRemaining_erase b.orders hmem, hremL, hLwf.total_eq]
        · intro j hj
          have hji : j ≠ i := fun he => hierase (he ▸ hj)
          obtain ⟨ox, f1, f2, f3, f4⟩ := hLwf.mems j (List.mem_of_mem_erase hj)
          refine ⟨ox, ?_, f2, f3, f4⟩
          rw [lookupOrd_eraseOrd, if_neg hji]
          exact f1
      have hotherwf : ∀ M ∈ b.asks, M.price ≠ o.price →
          LevelWF (eraseOrd b.orders i) Side.SELL M := fun M hM hMp =>
        LevelWF_congr (hWF.askWF.levelsWF M hM) (hstabE M.orders (hinotin M hM hMp))
      have hL'p : ({ L with orders := L.orders.erase i, total_quantity := L.total_quantity - o.remaining_quantity } : PriceLevel).price = o.price := hLp
      split
      · rename_i hemp
        have hL'nil : L.orders.erase i = [] := by simpa using hemp
        have hLtot : L.total_quantity = o.remaining_quantity := by
          have ht := hL'wf.total_eq
          dsimp only at ht
          rw [hL'nil, sumRemaining_nil] at ht
          omega
        rw [eraseLevel_updateLevel hL'p hfl]
        refine ⟨hstE, ⟨hWF.bidWF.nodupPrices, hbidwf, hWF.bidWF.total_eq⟩, ⟨?_, ?_, ?_⟩⟩
        · exact hWF.askWF.nodupPrices.sublist ((eraseLevel_sublist b.asks o.price).map _)
        · intro M hM
          have hMb : M ∈ b.asks := (eraseLevel_sublist b.asks o.price).subset hM
          exact hotherwf M hMb (eraseLevel_no_price hWF.askWF.nodupPrices hfl hM)
        · show b.total_ask_quantity - o.remaining_quantity
            = ((eraseLevel b.asks o.price).map PriceLevel.total_quantity).sum
          rw [eraseLevel_sum hfl, ← hWF.askWF.total_eq, hLtot]
      · refine ⟨hstE, ⟨hWF.bidWF.nodupPrices, hbidwf, hWF.bidWF.total_eq⟩, ⟨?_, ?_, ?_⟩⟩
        · show ((updateLevel b.asks o.price { L with orders := L.orders.erase i, total_quantity := L.total_quantity - o.remaining_quantity }).map PriceLevel.price).Nodup
          rw [updateLevel_map_price_eq L _ hfl (hL'p.trans hLp.symm)]
          exact hWF.askWF.nodupPrices
        · intro M hM
          rcases updateLevel_mem_nodup hWF.askWF.nodupPrices hfl hM with hM | ⟨hM, hMp⟩
          · subst hM
            exact hL'wf
          · exact hotherwf M hM hMp
        · show b.total_ask_quantity - o.remaining_quantity
            = ((updateLevel b.asks o.price { L with orders := L.orders.erase i, total_quantity := L.total_quantity - o.remaining_quantity }).map PriceLevel.total_quantity).sum
          rw [updateLevel_sum L _ hfl, ← hWF.askWF.total_eq]
          dsimp only
          ring
  · rw [(cancel_order_cases b i).1 (by simpa using hres)]
    exact hWF

/-- The three outcomes of `PriceLevel::modify_order_quantity` when the id
resolves in the store. -/
theorem modify_order_quantity_cases (st : Store) (L : PriceLevel) (i : Nat)
    (nq : Int) {o : Order} (hlk : lookupOrd st i = some o) :
    (i ∈ L.orders → nq < o.executed_quantity →
       L.modify_order_quantity st i nq = (false, L, st)) ∧
    (i ∈ L.orders → ¬ nq < o.executed_quantity →
       L.modify_order_quantity st i nq =
         (true,
          { L with total_quantity := L.total_quantity - o.remaining_quantity
              + (o.set_quantity nq).remaining_quantity },
          updateOrd st i (o.set_quantity nq))) ∧
    (i ∉ L.orders → L.modify_order_quantity st i nq = (false, L, st)) := by
  unfold PriceLevel.modify_order_quantity
  refine ⟨?_, ?_, ?_⟩
  · intro hm hlt
    rw [if_pos hm, hlk]
    dsimp only
    rw [if_pos hlt]
  · intro hm hge
    rw [if_pos hm, hlk]
    dsimp only
    rw [if_neg hge]
  · intro hm
    rw [if_neg hm]

/-- A successful cancel removes the id from the index. -/
theorem cancel_success_fresh (b : OrderBook) (i : Nat)
    (hc : (b.cancel_order i).1 = true) :
    lookupOrd (b.cancel_order i).2.1.orders i = none := by
  by_cases hres : restingIn b i = true
  · obtain ⟨o, L, hlk, hfl, hmem⟩ := restingIn_true hres
    rw [(cancel_order_cases b i).2 o L hlk hfl hmem]
    show lookupOrd (cancelExpected b o L i).orders i = none
    unfold cancelExpected
    cases o.side <;> dsimp only <;> rw [lookupOrd_eraseOrd] <;> rw [if_pos rfl]
  · rw [(cancel_order_cases b i).1 (by simpa using hres)] at hc
    exact absurd hc (by simp)

/-- The cancel-and-replace tail of `modify_order` preserves
well-formedness. -/
theorem modifyReplace_wf (b : OrderBook) (o : Order) (i : Nat)
    (np nq : Option Int) (hWF : BookWF b) (hq : 0 ≤ o.quantity)
    (hnq : ∀ v, nq = some v → 0 ≤ v) :
    BookWF (OrderBook.modify_order.modifyReplace b o i np nq).2 := by
  unfold OrderBook.modify_order.modifyReplace
  dsimp only
  split
  · exact hWF
  · rename_i hc
    have hc' : (b.cancel_order i).1 = true := by
      by_cases h : (b.cancel_order i).1 = true
      · exact h
      · exact absurd (by simpa using h) hc
    have hq' : 0 ≤ nq.getD o.quantity := by
      cases nq with
      | none => exact hq
      | some v => exact hnq v rfl
    exact add_order_wf _ _ (cancel_order_wf b i hWF)
      (cancel_success_fresh b i hc') rfl hq'

/-- A successful in-place quantity decrease on a bid level preserves book
well-formedness: the level total and side total both move by the change
in the order's remaining quantity, and the store update keeps its
invariants. -/
theorem modify_fast_success_bid_wf (b : OrderBook) (i : Nat) (o : Order) (v : Int)
    (L : PriceLevel) (hWF : BookWF b) (hlk : lookupOrd b.orders i = some o)
    (hfl : findLevel b.bids o.price = some L) (hmem : i ∈ L.orders)
    (hge : o.executed_quantity ≤ v) :
    BookWF { b with
      bids := updateLevel b.bids o.price
        { L with total_quantity := L.total_quantity - o.remaining_quantity
            + (o.set_quantity v).remaining_quantity },
      orders := updateOrd b.orders i (o.set_quantity v),
      total_bid_quantity := b.total_bid_quantity - o.remaining_quantity
        + (o.set_quantity v).remaining_quantity } := by
  obtain ⟨hid, h0, h1⟩ := hWF.store.lookup_props hlk
  have hLmem : L ∈ b.bids := findLevel_mem hfl
  have hLwf : LevelWF b.orders Side.BUY L := hWF.bidWF.levelsWF L hLmem
  have hLp : L.price = o.price := findLevel_price _ _ _ hfl
  obtain ⟨o₂, e1, e2, e3, e4⟩ := hLwf.mems i hmem
  have ho₂ : o = o₂ := Option.some.inj (hlk.symm.trans e1)
  subst ho₂
  have hstU : StoreWF (updateOrd b.orders i (o.set_quantity v)) :=
    hWF.store.updateOrd (show (o.set_quantity v).id = i from hid)
      (show 0 ≤ (o.set_quantity v).executed_quantity from h0)
      (show (o.set_quantity v).executed_quantity ≤ (o.set_quantity v).quantity from hge)
  have hstab : ∀ j, j ≠ i →
      lookupOrd (updateOrd b.orders i (o.set_quantity v)) j = lookupOrd b.orders j :=
    fun j hj => lookupOrd_updateOrd_ne b.orders i (o.set_quantity v) j hj
  have hinotin : ∀ M ∈ b.bids, M.price ≠ o.price → i ∉ M.orders := by
    intro M hM hMp hcon
    obtain ⟨o₃, f1, f2, _, _⟩ := (hWF.bidWF.levelsWF M hM).mems i hcon
    have f1' : o = o₃ := Option.some.inj (hlk.symm.trans f1)
    exact hMp (f2.symm.trans (congrArg Order.price f1'.symm))
  refine ⟨hstU, ⟨?_, ?_, ?_⟩, ⟨hWF.askWF.nodupPrices, ?_, hWF.askWF.total_eq⟩⟩
  · show ((updateLevel b.bids o.price
      { L with total_quantity := L.total_quantity - o.remaining_quantity
          + (o.set_quantity v).remaining_quantity }).map PriceLevel.price).Nodup
    rw [updateLevel_map_price_eq L { L with total_quantity := L.total_quantity - o.remaining_quantity + (o.set_quantity v).remaining_quantity } hfl rfl]
    exact hWF.bidWF.nodupPrices
  · intro M hM
    rcases updateLevel_mem_nodup hWF.bidWF.nodupPrices hfl hM with hM | ⟨hM, hMp⟩
    · subst hM
      refine ⟨?_, hLwf.nodup, ?_⟩
      · show L.total_quantity - o.remaining_quantity + (o.set_quantity v).remaining_quantity
          = sumRemaining (updateOrd b.orders i (o.set_quantity v)) L.orders
        rw [sumRemaining_update hmem hLwf.nodup hlk, hLwf.total_eq]
      · intro j hj
        by_cases hji : j = i
        · subst hji
          refine ⟨o.set_quantity v, ?_, e2, e3, e4⟩
          rw [lookupOrd_updateOrd_self, hlk]
          rfl
        · obtain ⟨ox, f1, f2, f3, f4⟩ := hLwf.mems j hj
          exact ⟨ox, (hstab j hji).trans f1, f2, f3, f4⟩
    · exact LevelWF_congr (hWF.bidWF.levelsWF M hM)
        (fun j hj => hstab j (fun he => hinotin M hM hMp (he ▸ hj)))
  · show b.total_bid_quantity - o.remaining_quantity + (o.set_quantity v).remaining_quantity
      = ((updateLevel b.bids o.price
        { L with total_quantity := L.total_quantity - o.remaining_quantity
            + (o.set_quantity v).remaining_quantity }).map PriceLevel.total_quantity).sum
    rw [updateLevel_sum L _ hfl, ← hWF.bidWF.total_eq]
    dsimp only
    ring
  · intro M hM
    refine LevelWF_congr (hWF.askWF.levelsWF M hM) ?_
    intro j hj
    refine hstab j ?_
    intro hji
    obtain ⟨o₃, f1, _, f3, _⟩ := (hWF.askWF.levelsWF M hM).mems j hj
    rw [hji] at f1
    have f1' : o = o₃ := Option.some.inj (hlk.symm.trans f1)
    rw [← f1', e3] at f3
    exact Side.noConfusion f3

/-- The ask-side twin of `modify_fast_success_bid_wf`. -/
theorem modify_fast_success_ask_wf (b : OrderBook) (i : Nat) (o : Order) (v : Int)
    (L : PriceLevel) (hWF : BookWF b) (hlk : lookupOrd b.orders i = some o)
    (hfl : findLevel b.asks o.price = some L) (hmem : i ∈ L.orders)
    (hge : o.executed_quantity ≤ v) :
    BookWF { b with
      asks := updateLevel b.asks o.price
        { L with total_quantity := L.total_quantity - o.remaining_quantity
            + (o.set_quantity v).remaining_quantity },
      orders := updateOrd b.orders i (o.set_quantity v),
      total_ask_quantity := b.total_ask_quantity - o.remaining_quantity
        + (o.set_quantity v).remaining_quantity } := by
  obtain ⟨hid, h0, h1⟩ := hWF.store.lookup_props hlk
  have hLmem : L ∈ b.asks := findLevel_mem hfl
  have hLwf : LevelWF b.orders Side.SELL L := hWF.askWF.levelsWF L hLmem
  have hLp : L.price = o.price := findLevel_price _ _ _ hfl
  obtain ⟨o₂, e1, e2, e3, e4⟩ := hLwf.mems i hmem
  have ho₂ : o = o₂ := Option.some.inj (hlk.symm.trans e1)
  subst ho₂
  have hstU : StoreWF (updateOrd b.orders i (o.set_quantity v)) :=
    hWF.store.updateOrd (show (o.set_quantity v).id = i from hid)
      (show 0 ≤ (o.set_quantity v).executed_quantity from h0)
      (show (o.set_quantity v).executed_quantity ≤ (o.set_quantity v).quantity from hge)
  have hstab : ∀ j, j ≠ i →
      lookupOrd (updateOrd b.orders i (o.set_quantity v)) j = lookupOrd b.orders j :=
    fun j hj => lookupOrd_updateOrd_ne b.orders i (o.set_quantity v) j hj
  have hinotin : ∀ M ∈ b.asks, M.price ≠ o.price → i ∉ M.orders := by
    intro M hM hMp hcon
    obtain ⟨o₃, f1, f2, _, _⟩ := (hWF.askWF.levelsWF M hM).mems i hcon
    have f1' : o = o₃ := Option.some.inj (hlk.symm.trans f1)
    exact hMp (f2.symm.trans (congrArg Order.price f1'.symm))
  refine ⟨hstU, ⟨hWF.bidWF.nodupPrices, ?_, hWF.bidWF.total_eq⟩, ⟨?_, ?_, ?_⟩⟩
  · intro M hM
    refine LevelWF_congr (hWF.bidWF.levelsWF M hM) ?_
    intro j hj
    refine hstab j ?_
    intro hji
    obtain ⟨o₃, f1, _, f3, _⟩ := (hWF.bidWF.levelsWF M hM).mems j hj
    rw [hji] at f1
    have f1' : o = o₃ := Option.some.inj (hlk.symm.trans f1)
    rw [← f1', e3] at f3
    exact Side.noConfusion f3
  · show ((updateLevel b.asks o.price
      { L with total_quantity := L.total_quantity - o.remaining_quantity
          + (o.set_quantity v).remaining_quantity }).map PriceLevel.price).Nodup
    rw [updateLevel_map_price_eq L { L with total_quantity := L.total_quantity - o.remaining_quantity + (o.set_quantity v).remaining_quantity } hfl rfl]
    exact hWF.askWF.nodupPrices
  · intro M hM
    rcases updateLevel_mem_nodup hWF.askWF.nodupPrices hfl hM with hM | ⟨hM, hMp⟩
    · subst hM
      refine ⟨?_, hLwf.nodup, ?_⟩
      · show L.total_quantity - o.remaining_quantity + (o.set_quantity v).remaining_quantity
          = sumRemaining (updateOrd b.orders i (o.set_quantity v)) L.orders
        rw [sumRemaining_update hmem hLwf.nodup hlk, hLwf.total_eq]
      · intro j hj
        by_cases hji : j = i
        · subst hji
          refine ⟨o.set_quantity v, ?_, e2, e3, e4⟩
          rw [lookupOrd_updateOrd_self, hlk]
          rfl
        · obtain ⟨ox, f1, f2, f3, f4⟩ := hLwf.mems j hj
          exact ⟨ox, (hstab j hji).trans f1, f2, f3, f4⟩
    · exact LevelWF_congr (hWF.askWF.levelsWF M hM)
        (fun j hj => hstab j (fun he => hinotin M hM hMp (he ▸ hj)))
  · show b.total_ask_quantity - o.remaining_quantity + (o.set_quantity v).remaining_quantity
      = ((updateLevel b.asks o.price
        { L with total_quantity := L.total_quantity - o.remaining_quantity
            + (o.set_quantity v).remaining_quantity }).map PriceLevel.total_quantity).sum
    rw [updateLevel_sum L _ hfl, ← hWF.askWF.total_eq]
    dsimp only
    ring

/-- `modify_order` preserves book well-formedness when every requested
quantity is non-negative. -/
theorem modify_order_wf (b : OrderBook) (i : Nat) (np nq : Option Int)
    (hWF : BookWF b) (hnq : ∀ v, nq = some v → 0 ≤ v) :
    BookWF (b.modify_order i np nq).2 := by
  unfold OrderBook.modify_order
  split
  · exact hWF
  · cases hlk : lookupOrd b.orders i with
    | none => exact hWF
    | some o =>
        obtain ⟨hid, h0, h1⟩ := hWF.store.lookup_props hlk
        have hq : 0 ≤ o.quantity := le_trans h0 h1
        cases np with
        | some p =>
            cases nq with
            | none => exact modifyReplace_wf b o i (some p) none hWF hq hnq
            | some v => exact modifyReplace_wf b o i (some p) (some v) hWF hq hnq
        | none =>
            cases nq with
            | none => exact modifyReplace_wf b o i none none hWF hq hnq
            | some v =>
                dsimp only
                split
                · -- the in-place fast path
                  cases hside : o.side <;> dsimp only
                  · -- BUY
                    cases hfl : findLevel b.bids o.price with
                    | none =>
                        dsimp only
                        rw [hlk]
                        dsimp only
                        exact set_status_replaced_wf b i o hWF hlk
                    | some L =>
                        dsimp only
                        rcases Classical.em (i ∈ L.orders ∧ ¬ v < o.executed_quantity)
                          with ⟨hmem, hge⟩ | hfail
                        · rw [(modify_order_quantity_cases b.orders L i v hlk).2.1 hmem hge]
                          dsimp only
                          have hlknew : lookupOrd (updateOrd b.orders i (o.set_quantity v)) i
                              = some (o.set_quantity v) := by
                            rw [lookupOrd_updateOrd_self, hlk]
                            rfl
                          rw [hlknew]
                          dsimp only
                          exact set_status_replaced_wf _ i (o.set_quantity v)
                            (modify_fast_success_bid_wf b i o v L hWF hlk hfl hmem
                              (by omega)) hlknew
                        · have hr : L.modify_order_quantity b.orders i v
                              = (false, L, b.orders) := by
                            by_cases hmem : i ∈ L.orders
                            · have hlt : v < o.executed_quantity := by
                                by_cases h : v < o.executed_quantity
                                · exact h
                                · exact absurd ⟨hmem, h⟩ hfail
                              exact (modify_order_quantity_cases b.orders L i v hlk).1
                                hmem hlt
                            · exact (modify_order_quantity_cases b.orders L i v hlk).2.2
                                hmem
                          rw [hr]
                          dsimp only
                          rw [hlk]
                          dsimp only
                          rw [updateLevel_findLevel_self b.bids o.price L hfl]
                          refine set_status_replaced_wf
                            { b with bids := b.bids, orders := b.orders,
                                     total_bid_quantity := b.total_bid_quantity
                                       - o.remaining_quantity + o.remaining_quantity }
                            i o ⟨hWF.store, ⟨hWF.bidWF.nodupPrices, hWF.bidWF.levelsWF, ?_⟩,
                              hWF.askWF⟩ hlk
                          show b.total_bid_quantity - o.remaining_quantity
                              + o.remaining_quantity
                            = (b.bids.map PriceLevel.total_quantity).sum
                          rw [← hWF.bidWF.total_eq]
                          ring
                  · -- SELL
                    cases hfl : findLevel b.asks o.price with
                    | none =>
                        dsimp only
                        rw [hlk]
                        dsimp only
                        exact set_status_replaced_wf b i o hWF hlk
                    | some L =>
                        dsimp only
                        rcases Classical.em (i ∈ L.orders ∧ ¬ v < o.executed_quantity)
                          with ⟨hmem, hge⟩ | hfail
                        · rw [(modify_order_quantity_cases b.orders L i v hlk).2.1 hmem hge]
                          dsimp only
                          have hlknew : lookupOrd (updateOrd b.orders i (o.set_quantity v)) i
                              = some (o.set_quantity v) := by
                            rw [lookupOrd_updateOrd_self, hlk]
                            rfl
                          rw [hlknew]
                          dsimp only
                          exact set_status_replaced_wf _ i (o.set_quantity v)
                            (modify_fast_success_ask_wf b i o v L hWF hlk hfl hmem
                              (by omega)) hlknew
                        · have hr : L.modify_order_quantity b.orders i v
                              = (false, L, b.orders) := by
                            by_cases hmem : i ∈ L.orders
                            · have hlt : v < o.executed_quantity := by
                                by_cases h : v < o.executed_quantity
                                · exact h
                                · exact absurd ⟨hmem, h⟩ hfail
                              exact (modify_order_quantity_cases b.orders L i v hlk).1
                                hmem hlt
                            · exact (modify_order_quantity_cases b.orders L i v hlk).2.2
                                hmem
                          rw [hr]
                          dsimp only
                          rw [hlk]
                          dsimp only
                          rw [updateLevel_findLevel_self b.asks o.price L hfl]
                          refine set_status_replaced_wf
                            { b with asks := b.asks, orders := b.orders,
                                     total_ask_quantity := b.total_ask_quantity
                                       - o.remaining_quantity + o.remaining_quantity }
                            i o ⟨hWF.store, hWF.bidWF,
                              ⟨hWF.askWF.nodupPrices, hWF.askWF.levelsWF, ?_⟩⟩ hlk
                          show b.total_ask_quantity - o.remaining_quantity
                              + o.remaining_quantity
                            = (b.asks.map PriceLevel.total_quantity).sum
                          rw [← hWF.askWF.total_eq]
                          ring
                · exact modifyReplace_wf b o i none (some v) hWF hq hnq

theorem emptyBook_wf : BookWF emptyBook := by
  refine ⟨⟨?_, ?_, ?_⟩, ⟨?_, ?_, ?_⟩, ⟨?_, ?_, ?_⟩⟩ <;> simp [emptyBook]

/-- Every book reachable from the empty book by valid operations is
well-formed. -/
theorem reachable_wf {b : OrderBook} (h : Reachable b) : BookWF b := by
  induction h with
  | empty => exact emptyBook_wf
  | submit b o hR hfresh hexec hq ih => exact add_order_wf b o ih hfresh hexec hq
  | cancel b i hR ih => exact cancel_order_wf b i ih
  | modify b i np nq hR hnq ih => exact modify_order_wf b i np nq ih hnq

theorem bookR1_reachable : Reachable bookR1 :=
  Reachable.submit emptyBook
    (mkOrder 1 Side.BUY OrderType.LIMIT 50000 1000000 TimeInForce.GTC)
    Reachable.empty rfl rfl (by decide)

/-- C5 (amended): in every book reachable by valid submit/cancel/modify
operations, an order resting on the book — its id resolves in the index
and sits in a price level on side `s` — carries the level's price and
side and has a non-negative remaining quantity, and its status is one of
ACCEPTED, PARTIALLY_FILLED, REPLACED or CANCELLED. The claimed stronger
form — `is_active` and strictly positive remaining — is false: an
in-place modify leaves a resting order REPLACED (hence inactive), and a
failed FOK rests its CANCELLED taker. -/
theorem resting_order_props (b : OrderBook) (h : Reachable b) (s : Side)
    (L : PriceLevel) (hL : L ∈ b.sideLevels s) (i : Nat) (hmem : i ∈ L.orders)
    (o : Order) (hlk : b.get_order i = some o) :
    0 ≤ o.remaining_quantity ∧ o.price = L.price ∧ o.side = s ∧
    (o.status = OrderStatus.ACCEPTED ∨ o.status = OrderStatus.PARTIALLY_FILLED ∨
     o.status = OrderStatus.REPLACED ∨ o.status = OrderStatus.CANCELLED) := by
  have hWF := reachable_wf h
  have hLwf : LevelWF b.orders s L := by
    cases s
    · exact hWF.bidWF.levelsWF L hL
    · exact hWF.askWF.levelsWF L hL
  obtain ⟨o₂, e1, e2, e3, e4⟩ := hLwf.mems i hmem
  have ho : o = o₂ := Option.some.inj (hlk.symm.trans e1)
  subst ho
  obtain ⟨_, h0, h1⟩ := hWF.store.lookup_props e1
  refine ⟨?_, e2, e3, e4⟩
  unfold Order.remaining_quantity
  omega

theorem resting_order_props_witness :
    0 ≤ ordC5.remaining_quantity ∧ ordC5.price = lvlC5.price ∧
    ordC5.side = Side.BUY ∧
    (ordC5.status = OrderStatus.ACCEPTED ∨
     ordC5.status = OrderStatus.PARTIALLY_FILLED ∨
     ordC5.status = OrderStatus.REPLACED ∨
     ordC5.status = OrderStatus.CANCELLED) :=
  resting_order_props bookR1 bookR1_reachable Side.BUY lvlC5 (by decide) 1
    (by decide) ordC5 (by decide)

/-- C6: in every book reachable by valid submit/cancel/modify operations,
each price level's cached total equals the sum of its members' remaining
quantities, and each side's cached total equals the sum of its levels'
totals. -/
theorem totals_consistent (b : OrderBook) (h : Reachable b) :
    (∀ L ∈ b.bids, L.total_quantity = sumRemaining b.orders L.orders) ∧
    (∀ L ∈ b.asks, L.total_quantity = sumRemaining b.orders L.orders) ∧
    b.total_bid_quantity = (b.bids.map PriceLevel.total_quantity).sum ∧
    b.total_ask_quantity = (b.asks.map PriceLevel.total_quantity).sum := by
  have hWF := reachable_wf h
  exact ⟨fun L hL => (hWF.bidWF.levelsWF L hL).total_eq,
    fun L hL => (hWF.askWF.levelsWF L hL).total_eq,
    hWF.bidWF.total_eq, hWF.askWF.total_eq⟩

theorem totals_consistent_witness :
    lvlC5.total_quantity = sumRemaining bookR1.orders lvlC5.orders ∧
    bookR1.total_bid_quantity = (bookR1.bids.map PriceLevel.total_quantity).sum ∧
    bookR1.total_ask_quantity = (bookR1.asks.map PriceLevel.total_quantity).sum :=
  ⟨(totals_consistent bookR1 bookR1_reachable).1 lvlC5 (by decide),
   (totals_consistent bookR1 bookR1_reachable).2.2.1,
   (totals_consistent bookR1 bookR1_reachable).2.2.2⟩

end TradingEngine
